import Mathlib

/-!
Shallow embedding of the `gm` package (generalized spherical Mercator
projection) over the real numbers.  Go `float64` values that can be `±Inf`
(the scalar `t` and the planar `y` coordinate) are modelled by `EReal`;
all other numerics are `ℝ`.  `math.Atan2 y x` is modelled by the argument
of the complex number `x + y*I`, which agrees with it away from signed
zeros.  The structure of every definition follows the Go source
(`gm.go` and the vendored parts of `github.com/golang/geo` it calls).
-/

open scoped Classical

noncomputable section

/-- Go `math.Atan2 y x`, modelled as the argument of `x + y*I`. -/
def atan2 (y x : ℝ) : ℝ := Complex.arg ⟨x, y⟩

/-- Go `math.Copysign x y`: magnitude of `x` with the sign of `y`
(the sign of a zero `y` is taken positive). -/
def copysign (x y : ℝ) : ℝ := if y < 0 then -|x| else |x|

/-- `r3.Vector` from github.com/golang/geo/r3. -/
structure Vec3 where
  x : ℝ
  y : ℝ
  z : ℝ

namespace Vec3

/-- `r3.Vector.Add`. -/
def add (v w : Vec3) : Vec3 := ⟨v.x + w.x, v.y + w.y, v.z + w.z⟩

/-- `r3.Vector.Sub`. -/
def sub (v w : Vec3) : Vec3 := ⟨v.x - w.x, v.y - w.y, v.z - w.z⟩

/-- `r3.Vector.Mul` (scalar multiple). -/
def mul (v : Vec3) (c : ℝ) : Vec3 := ⟨v.x * c, v.y * c, v.z * c⟩

/-- `r3.Vector.Dot`. -/
def dot (v w : Vec3) : ℝ := v.x * w.x + v.y * w.y + v.z * w.z

/-- `r3.Vector.Cross`. -/
def cross (v w : Vec3) : Vec3 :=
  ⟨v.y * w.z - v.z * w.y, v.z * w.x - v.x * w.z, v.x * w.y - v.y * w.x⟩

/-- `r3.Vector.Norm`. -/
def norm (v : Vec3) : ℝ := Real.sqrt (v.dot v)

/-- `r3.Vector.Normalize`: the zero vector normalizes to itself, any other
vector is scaled by the reciprocal of its norm. -/
def normalize (v : Vec3) : Vec3 :=
  if v.dot v = 0 then ⟨0, 0, 0⟩ else v.mul (Real.sqrt (v.dot v))⁻¹

/-- `r3.Vector.Angle`: `atan2(‖v × w‖, v·w)`. -/
def angle (v w : Vec3) : ℝ := atan2 (v.cross w).norm (v.dot w)

end Vec3

/-- `s2.LatLng`: latitude and longitude in radians. -/
structure LatLng where
  lat : ℝ
  lng : ℝ

/-- `s2.PointFromLatLng`: `(cos θ cos φ, sin θ cos φ, sin φ)` for
latitude `φ` and longitude `θ`. -/
def pointFromLatLng (ll : LatLng) : Vec3 :=
  ⟨Real.cos ll.lng * Real.cos ll.lat, Real.sin ll.lng * Real.cos ll.lat,
    Real.sin ll.lat⟩

/-- `s2.LatLngFromPoint`: latitude `atan2(z, √(x²+y²))`, longitude
`atan2(y, x)`. -/
def latLngFromPoint (p : Vec3) : LatLng :=
  ⟨atan2 p.z (Real.sqrt (p.x * p.x + p.y * p.y)), atan2 p.y p.x⟩

/-- `s2.Rotate`: rotate `p` about the (unit) `axis` by `angle`, then
normalize the result. -/
def rotate (p axis : Vec3) (angle : ℝ) : Vec3 :=
  let center := axis.mul (p.dot axis)
  let dx := p.sub center
  let dy := axis.cross p
  (((dx.mul (Real.cos angle)).add (dy.mul (Real.sin angle))).add center).normalize

/-- `gm.approxEqual`: componentwise equality with absolute tolerance `1e-15`. -/
def approxEqual (a b : Vec3) : Prop :=
  |a.x - b.x| < 1e-15 ∧ |a.y - b.y| < 1e-15 ∧ |a.z - b.z| < 1e-15

/-- One component of `gm.snapToInts`: a value within `1e-15` of its nearest
integer is replaced by that integer. -/
def snap1 (a : ℝ) : ℝ := if |a - (round a : ℝ)| < 1e-15 then (round a : ℝ) else a

/-- `gm.snapToInts`. -/
def snapToInts (v : Vec3) : Vec3 := ⟨snap1 v.x, snap1 v.y, snap1 v.z⟩

/-- `gm.GeneralizedMercator`: the projection frame. -/
structure GeneralizedMercator where
  pos : Vec3
  neg : Vec3
  i : Vec3
  j : Vec3
  k : Vec3
  t : EReal

/-- `gm.New`.  The Go function panics on indistinguishable poles; the
panic is modelled by returning `none`.  In the non-antipodal branch the
float quotient `‖pos+neg‖ / (1 + pos·neg)` is `+Inf` when the denominator
is exactly zero (the numerator is positive there, since `pos` and `-neg`
differ by at least the tolerance in some component); real division cannot
represent that, so the zero-denominator case is split off explicitly. -/
def New (posLL negLL : LatLng) : Option GeneralizedMercator :=
  let pos := snapToInts (pointFromLatLng posLL)
  let neg := snapToInts (pointFromLatLng negLL)
  if approxEqual pos neg then none
  else
    let k := (pos.sub neg).normalize
    if approxEqual pos (neg.mul (-1)) then
      let i : Vec3 :=
        if pos.x = 0 then ⟨1, 0, 0⟩
        else if pos.z = 0 then ⟨0, 0, 1⟩
        else ((⟨0, pos.z, 0⟩ : Vec3).cross pos).normalize
      some ⟨pos, neg, i, k.cross i, k, ⊤⟩
    else
      let i := (pos.add neg).normalize
      some ⟨pos, neg, i, k.cross i, k,
        if 1 + pos.dot neg = 0 then (⊤ : EReal)
        else (((pos.add neg).norm / (1 + pos.dot neg) : ℝ) : EReal)⟩

/-- `r2.Point`, the planar image: the `y` coordinate may be `±∞`. -/
structure PlanarPoint where
  x : ℝ
  y : EReal

/-- `gm.GeneralizedMercator.Project`.  `1/gm.t` is `gm.t.toReal⁻¹`
(zero when `t = ⊤`, matching `1/Inf = 0`). -/
def Project (gm : GeneralizedMercator) (ll : LatLng) : PlanarPoint :=
  let P := pointFromLatLng ll
  if approxEqual P gm.pos then ⟨0, ⊤⟩
  else if approxEqual P gm.neg then ⟨0, ⊥⟩
  else
    let beta := copysign
      (Vec3.angle ((gm.i.sub (P.mul gm.t.toReal⁻¹)).cross gm.j) gm.k)
      (P.dot gm.k)
    let iprime := rotate gm.i gm.j beta
    let kprime := rotate gm.k gm.j beta
    let C := kprime.mul (P.dot kprime)
    let psi := copysign (Vec3.angle P (P.sub C)) (P.dot gm.k)
    ⟨copysign (Vec3.angle iprime (P.sub C)) ((P.sub C).dot gm.j),
      (Real.log (Real.tan (Real.pi / 4 + psi / 2)) : ℝ)⟩

/-- The point on the sphere computed by `Unproject` for a finite planar
input `(px, py)`. -/
def unprojectPoint (gm : GeneralizedMercator) (px py : ℝ) : Vec3 :=
  let psi := 2 * Real.arctan (Real.exp py) - Real.pi / 2
  let beta := Real.arcsin (Real.sin psi * gm.t.toReal⁻¹)
  let iprime := rotate gm.i gm.j beta
  let kprime := rotate gm.k gm.j beta
  let C := kprime.mul (Real.sin psi)
  ((rotate iprime kprime px).mul (Real.cos psi)).add C

/-- `gm.GeneralizedMercator.Unproject`. -/
def Unproject (gm : GeneralizedMercator) (p : PlanarPoint) : LatLng :=
  if p.y = ⊤ then latLngFromPoint gm.pos
  else if p.y = ⊥ then latLngFromPoint gm.neg
  else latLngFromPoint (unprojectPoint gm p.x p.y.toReal)

/-- The local `psi` computed by `Unproject` from the planar `y` coordinate:
`2 atan(exp y) − π/2`. -/
def upsi (py : ℝ) : ℝ := 2 * Real.arctan (Real.exp py) - Real.pi / 2

/-- The local `beta` computed by `Unproject`: `asin(sin psi / t)`. -/
def ubeta (gm : GeneralizedMercator) (py : ℝ) : ℝ :=
  Real.arcsin (Real.sin (upsi py) * gm.t.toReal⁻¹)

/-- The tie-break vector `i` chosen by `New` in the antipodal branch. -/
def tieBreakI (pos : Vec3) : Vec3 :=
  if pos.x = 0 then ⟨1, 0, 0⟩
  else if pos.z = 0 then ⟨0, 0, 1⟩
  else ((⟨0, pos.z, 0⟩ : Vec3).cross pos).normalize

/-- The tie-break formula of the historical version of `New` (present in the
source): `i = (cos φ, 0, sin φ)` where `φ = atan2(−cos lng, tan lat)` is
computed from whichever input pole has non-negative latitude. -/
def tieBreakIOld (posLL negLL : LatLng) : Vec3 :=
  let p := if posLL.lat < 0 then negLL else posLL
  let phi := atan2 (-Real.cos p.lng) (Real.tan p.lat)
  ⟨Real.cos phi, 0, Real.sin phi⟩

/-- The classical Mercator frame: poles at latitude `±π/2`. -/
def mercFrame : GeneralizedMercator :=
  ⟨⟨0, 0, 1⟩, ⟨0, 0, -1⟩, ⟨1, 0, 0⟩, ⟨0, 1, 0⟩, ⟨0, 0, 1⟩, ⊤⟩

/-- The frame for equatorial antipodes at longitudes `0` and `π`. -/
def equatorFrame : GeneralizedMercator :=
  ⟨⟨1, 0, 0⟩, ⟨-1, 0, 0⟩, ⟨0, 0, 1⟩, ⟨0, -1, 0⟩, ⟨1, 0, 0⟩, ⊤⟩

/-- The frame that `New` builds from a pole at latitude `1e-8`, longitude
`0`, and the south pole: snapping pulls the first coordinate of the positive
pole to `1` while leaving its small `z` component, so the stored pole is not
a unit vector. -/
def degFrame : GeneralizedMercator :=
  ⟨⟨1, 0, Real.sin 1e-8⟩, ⟨0, 0, -1⟩,
    ((⟨1, 0, Real.sin 1e-8⟩ : Vec3).add ⟨0, 0, -1⟩).normalize,
    (((⟨1, 0, Real.sin 1e-8⟩ : Vec3).sub ⟨0, 0, -1⟩).normalize).cross
      (((⟨1, 0, Real.sin 1e-8⟩ : Vec3).add ⟨0, 0, -1⟩).normalize),
    ((⟨1, 0, Real.sin 1e-8⟩ : Vec3).sub ⟨0, 0, -1⟩).normalize,
    (((((⟨1, 0, Real.sin 1e-8⟩ : Vec3).add ⟨0, 0, -1⟩).norm /
      (1 + (⟨1, 0, Real.sin 1e-8⟩ : Vec3).dot ⟨0, 0, -1⟩)) : ℝ) : EReal)⟩

/-- The frame that `New` builds from nearly antipodal poles at latitudes
`4.4e-8` and `-(4.4e-8 - 1.2e-15)`, longitudes `0` and `π`: snapping makes
`pos·neg < -1`, so the computed `t` is negative. -/
def negtFrame : GeneralizedMercator :=
  ⟨⟨1, 0, Real.sin 4.4e-8⟩, ⟨-1, 0, -Real.sin (4.4e-8 - 1.2e-15)⟩,
    ((⟨1, 0, Real.sin 4.4e-8⟩ : Vec3).add ⟨-1, 0, -Real.sin (4.4e-8 - 1.2e-15)⟩).normalize,
    (((⟨1, 0, Real.sin 4.4e-8⟩ : Vec3).sub ⟨-1, 0, -Real.sin (4.4e-8 - 1.2e-15)⟩).normalize).cross
      (((⟨1, 0, Real.sin 4.4e-8⟩ : Vec3).add ⟨-1, 0, -Real.sin (4.4e-8 - 1.2e-15)⟩).normalize),
    ((⟨1, 0, Real.sin 4.4e-8⟩ : Vec3).sub ⟨-1, 0, -Real.sin (4.4e-8 - 1.2e-15)⟩).normalize,
    (((((⟨1, 0, Real.sin 4.4e-8⟩ : Vec3).add ⟨-1, 0, -Real.sin (4.4e-8 - 1.2e-15)⟩).norm /
      (1 + (⟨1, 0, Real.sin 4.4e-8⟩ : Vec3).dot ⟨-1, 0, -Real.sin (4.4e-8 - 1.2e-15)⟩)) : ℝ) : EReal)⟩

/-- The frame that `New` builds from two distinct poles whose snapped unit
vectors differ by only `1.6e-15` in one component: points may lie within
tolerance of both poles at once. -/
def closeFrame : GeneralizedMercator :=
  ⟨⟨1, 0, Real.sin 4.4e-8⟩, ⟨1, 0, Real.sin (4.4e-8 - 1.6e-15)⟩,
    ((⟨1, 0, Real.sin 4.4e-8⟩ : Vec3).add ⟨1, 0, Real.sin (4.4e-8 - 1.6e-15)⟩).normalize,
    (((⟨1, 0, Real.sin 4.4e-8⟩ : Vec3).sub ⟨1, 0, Real.sin (4.4e-8 - 1.6e-15)⟩).normalize).cross
      (((⟨1, 0, Real.sin 4.4e-8⟩ : Vec3).add ⟨1, 0, Real.sin (4.4e-8 - 1.6e-15)⟩).normalize),
    ((⟨1, 0, Real.sin 4.4e-8⟩ : Vec3).sub ⟨1, 0, Real.sin (4.4e-8 - 1.6e-15)⟩).normalize,
    (((((⟨1, 0, Real.sin 4.4e-8⟩ : Vec3).add ⟨1, 0, Real.sin (4.4e-8 - 1.6e-15)⟩).norm /
      (1 + (⟨1, 0, Real.sin 4.4e-8⟩ : Vec3).dot ⟨1, 0, Real.sin (4.4e-8 - 1.6e-15)⟩)) : ℝ) : EReal)⟩

/-- The frame that `New` builds from poles at `(lat 4.4e-8, lng 0)` and
`(lat 0, lng π)`: the snapped poles `(1, 0, sin 4.4e-8)` and `(-1, 0, 0)`
are not antipodal within tolerance, yet `1 + pos·neg = 0` exactly, so the
float quotient computed for `t` is `+Inf`. -/
def divzeroFrame : GeneralizedMercator :=
  ⟨⟨1, 0, Real.sin 4.4e-8⟩, ⟨-1, 0, 0⟩,
    ((⟨1, 0, Real.sin 4.4e-8⟩ : Vec3).add ⟨-1, 0, 0⟩).normalize,
    (((⟨1, 0, Real.sin 4.4e-8⟩ : Vec3).sub ⟨-1, 0, 0⟩).normalize).cross
      (((⟨1, 0, Real.sin 4.4e-8⟩ : Vec3).add ⟨-1, 0, 0⟩).normalize),
    ((⟨1, 0, Real.sin 4.4e-8⟩ : Vec3).sub ⟨-1, 0, 0⟩).normalize,
    ⊤⟩

/-- Linear combination of three vectors with scalar coefficients. -/
def comboV (i j k : Vec3) (a b c : ℝ) : Vec3 :=
  (i.mul a).add ((j.mul b).add (k.mul c))

/-- A right-handed orthonormal triple, recorded through all pairwise dot
products and the three cyclic cross products. -/
def orthoTriple (i j k : Vec3) : Prop :=
  i.dot i = 1 ∧ j.dot j = 1 ∧ k.dot k = 1 ∧
  i.dot j = 0 ∧ i.dot k = 0 ∧ k.dot j = 0 ∧
  i.cross j = k ∧ j.cross k = i ∧ k.cross i = j

/-- A frame whose basis data is exact: `i` and `k` are orthogonal unit
vectors, `j = k × i`, the reciprocal of `t` lies in `[0, 1)`, and the two
poles sit symmetrically about the `i` axis in the `ik`-plane.  Frames built
by `New` from exactly-unit snapped poles (exactly antipodal ones in the
antipodal branch) have this shape. -/
def goodGM (gm : GeneralizedMercator) : Prop :=
  gm.i.dot gm.i = 1 ∧ gm.k.dot gm.k = 1 ∧ gm.i.dot gm.k = 0 ∧
  gm.j = gm.k.cross gm.i ∧
  0 ≤ gm.t.toReal⁻¹ ∧ gm.t.toReal⁻¹ < 1 ∧
  gm.pos = (gm.i.mul gm.t.toReal⁻¹).add
    (gm.k.mul (Real.sqrt (1 - gm.t.toReal⁻¹ ^ 2))) ∧
  gm.neg = (gm.i.mul gm.t.toReal⁻¹).sub
    (gm.k.mul (Real.sqrt (1 - gm.t.toReal⁻¹ ^ 2)))

end

/-! ### Componentwise characterizations and vector algebra -/

theorem Vec3.eq_iff {v w : Vec3} : v = w ↔ v.x = w.x ∧ v.y = w.y ∧ v.z = w.z := by
  cases v; cases w; simp

theorem Vec3.dot_comm (v w : Vec3) : v.dot w = w.dot v := by
  simp only [Vec3.dot]; ring

theorem Vec3.dot_self_nonneg (v : Vec3) : 0 ≤ v.dot v := by
  simp only [Vec3.dot]
  nlinarith [sq_nonneg v.x, sq_nonneg v.y, sq_nonneg v.z]

theorem Vec3.dot_self_eq_zero_iff {v : Vec3} : v.dot v = 0 ↔ v = ⟨0, 0, 0⟩ := by
  simp only [Vec3.dot, Vec3.eq_iff]
  constructor
  · intro h
    refine ⟨?_, ?_, ?_⟩ <;> nlinarith [sq_nonneg v.x, sq_nonneg v.y, sq_nonneg v.z]
  · rintro ⟨hx, hy, hz⟩; simp [hx, hy, hz]

theorem Vec3.dot_cross_left (a b : Vec3) : (a.cross b).dot a = 0 := by
  simp only [Vec3.dot, Vec3.cross]; ring

theorem Vec3.dot_cross_right (a b : Vec3) : (a.cross b).dot b = 0 := by
  simp only [Vec3.dot, Vec3.cross]; ring

theorem Vec3.lagrange (a b : Vec3) :
    (a.cross b).dot (a.cross b) = a.dot a * b.dot b - (a.dot b) ^ 2 := by
  simp only [Vec3.dot, Vec3.cross]; ring

theorem Vec3.dot_sq_le (a b : Vec3) : (a.dot b) ^ 2 ≤ a.dot a * b.dot b := by
  have h := Vec3.dot_self_nonneg (a.cross b)
  have := Vec3.lagrange a b
  linarith

/-- Unconditional expansion of a vector over `i`, `j = k × i`, `k`. -/
theorem Vec3.expansion_general (i k v : Vec3) :
    v.mul (i.dot i * k.dot k - (i.dot k) ^ 2) =
      (((k.cross i).mul ((k.cross i).dot v)).add
        ((k.mul (i.dot i * k.dot v)).add
          ((i.mul (k.dot k * (i.dot v))).sub
            ((i.mul (i.dot k * (k.dot v))).add
              (k.mul (i.dot k * (i.dot v))))))) := by
  simp only [Vec3.mul, Vec3.add, Vec3.sub, Vec3.cross, Vec3.dot, Vec3.eq_iff]
  refine ⟨by ring, by ring, by ring⟩

/-- Expansion of a vector over an orthonormal pair `i`, `k` and `j = k × i`. -/
theorem Vec3.expansion {i k : Vec3} (hi : i.dot i = 1) (hk : k.dot k = 1)
    (hik : i.dot k = 0) (v : Vec3) :
    v = (i.mul (i.dot v)).add (((k.cross i).mul ((k.cross i).dot v)).add
      (k.mul (k.dot v))) := by
  have h := Vec3.expansion_general i k v
  rw [hi, hk, hik] at h
  rw [Vec3.eq_iff] at h
  simp only [Vec3.mul, Vec3.add, Vec3.sub, Vec3.cross, Vec3.dot] at h
  obtain ⟨h1, h2, h3⟩ := h
  rw [Vec3.eq_iff]
  simp only [Vec3.mul, Vec3.add, Vec3.sub, Vec3.cross, Vec3.dot]
  exact ⟨by linear_combination h1, by linear_combination h2, by linear_combination h3⟩

/-! ### Norms and normalization -/

theorem Vec3.norm_nonneg (v : Vec3) : 0 ≤ v.norm := Real.sqrt_nonneg _

theorem Vec3.norm_sq (v : Vec3) : v.norm ^ 2 = v.dot v :=
  Real.sq_sqrt v.dot_self_nonneg

theorem Vec3.norm_eq_one {v : Vec3} (h : v.dot v = 1) : v.norm = 1 := by
  rw [Vec3.norm, h, Real.sqrt_one]

theorem Vec3.norm_pos {v : Vec3} (h : v.dot v ≠ 0) : 0 < v.norm := by
  rcases lt_or_eq_of_le (Real.sqrt_nonneg (v.dot v)) with hlt | heq
  · exact hlt
  · exfalso
    have : v.dot v = 0 := by
      have := Real.sqrt_eq_zero' (x := v.dot v)
      rcases le_or_lt (v.dot v) 0 with h0 | h0
      · exact le_antisymm h0 v.dot_self_nonneg
      · nlinarith [Real.sq_sqrt (le_of_lt h0), heq]
    exact h this

theorem Vec3.normalize_of_unit {v : Vec3} (h : v.dot v = 1) : v.normalize = v := by
  rw [Vec3.normalize, if_neg (by rw [h]; norm_num), h, Real.sqrt_one, inv_one]
  simp [Vec3.mul, Vec3.eq_iff]

/-- Normalizing a positive scalar multiple of a unit vector recovers it. -/
theorem Vec3.normalize_smul_of_unit {v : Vec3} {c : ℝ} (h : v.dot v = 1)
    (hc : 0 < c) : (v.mul c).normalize = v := by
  have hdot : (v.mul c).dot (v.mul c) = c ^ 2 * 1 := by
    simp only [Vec3.mul, Vec3.dot] at h ⊢; nlinarith [h]
  rw [Vec3.normalize, if_neg (by rw [hdot]; positivity), hdot]
  rw [mul_one, Real.sqrt_sq hc.le]
  simp only [Vec3.mul, Vec3.eq_iff]
  refine ⟨?_, ?_, ?_⟩ <;> field_simp

/-! ### copysign and atan2 -/

theorem copysign_of_neg {y : ℝ} (x : ℝ) (h : y < 0) : copysign x y = -|x| :=
  if_pos h

theorem copysign_of_nonneg {y : ℝ} (x : ℝ) (h : 0 ≤ y) : copysign x y = |x| :=
  if_neg (not_lt.2 h)

theorem atan2_nonneg {y x : ℝ} (h : 0 ≤ y) : 0 ≤ atan2 y x :=
  Complex.arg_nonneg_iff.2 h

theorem atan2_le_pi (y x : ℝ) : atan2 y x ≤ Real.pi :=
  Complex.arg_le_pi _

theorem atan2_eq_pi_iff {y x : ℝ} : atan2 y x = Real.pi ↔ x < 0 ∧ y = 0 :=
  Complex.arg_eq_pi_iff

theorem atan2_zero_of_pos {x : ℝ} (h : 0 ≤ x) : atan2 0 x = 0 := by
  rw [atan2]
  have : (⟨x, 0⟩ : ℂ) = (x : ℂ) := by simp [Complex.ext_iff]
  rw [this]
  exact Complex.arg_ofReal_of_nonneg h

/-- `atan2` recovers the angle of a scaled direction vector. -/
theorem atan2_smul_cos_sin {θ r : ℝ} (hθ₁ : -Real.pi < θ) (hθ₂ : θ ≤ Real.pi)
    (hr : 0 < r) : atan2 (r * Real.sin θ) (r * Real.cos θ) = θ := by
  rw [atan2]
  have : (⟨r * Real.cos θ, r * Real.sin θ⟩ : ℂ) =
      (r : ℂ) * (Complex.cos θ + Complex.sin θ * Complex.I) := by
    simp [Complex.ext_iff, Complex.cos_ofReal_re, Complex.sin_ofReal_re]
  rw [this, Complex.arg_real_mul _ hr,
    Complex.arg_cos_add_sin_mul_I ⟨hθ₁, hθ₂⟩]

/-! ### Rotation about an orthogonal unit axis -/

theorem Vec3.dot_mul_left (v w : Vec3) (c : ℝ) : (v.mul c).dot w = c * (v.dot w) := by
  simp only [Vec3.mul, Vec3.dot]; ring

theorem Vec3.dot_mul_right (v w : Vec3) (c : ℝ) : v.dot (w.mul c) = c * (v.dot w) := by
  simp only [Vec3.mul, Vec3.dot]; ring

/-- For a unit vector orthogonal to a unit axis, `rotate` has the familiar
closed form: no normalization is needed. -/
theorem rotate_closed_form {p axis : Vec3} (hp : p.dot p = 1)
    (ha : axis.dot axis = 1) (hpa : p.dot axis = 0) (θ : ℝ) :
    rotate p axis θ = (p.mul (Real.cos θ)).add ((axis.cross p).mul (Real.sin θ)) := by
  rw [rotate]
  have hcenter : axis.mul (p.dot axis) = ⟨0, 0, 0⟩ := by
    rw [hpa]; simp [Vec3.mul, Vec3.eq_iff]
  simp only [hcenter]
  have hsub : p.sub ⟨0, 0, 0⟩ = p := by simp [Vec3.sub, Vec3.eq_iff]
  rw [hsub]
  set w := ((p.mul (Real.cos θ)).add ((axis.cross p).mul (Real.sin θ))).add ⟨0, 0, 0⟩
    with hw
  have hwsimp : w = (p.mul (Real.cos θ)).add ((axis.cross p).mul (Real.sin θ)) := by
    rw [hw]; simp [Vec3.add, Vec3.eq_iff]
  have hunit : w.dot w = 1 := by
    rw [hwsimp]
    have hcr : (axis.cross p).dot (axis.cross p) = 1 := by
      rw [Vec3.lagrange, ha, hp, Vec3.dot_comm axis p, hpa]
      norm_num
    have hpc : p.dot (axis.cross p) = 0 := by
      rw [Vec3.dot_comm]; exact Vec3.dot_cross_right axis p
    have pyth := Real.sin_sq_add_cos_sq θ
    simp only [Vec3.dot, Vec3.add, Vec3.mul] at hp hcr hpc ⊢
    linear_combination Real.cos θ ^ 2 * hp + Real.sin θ ^ 2 * hcr +
      2 * Real.sin θ * Real.cos θ * hpc + pyth
  rw [hwsimp] at hunit ⊢
  exact Vec3.normalize_of_unit hunit

theorem Vec3.a_cross_bc (a b c : Vec3) :
    a.cross (b.cross c) = (b.mul (a.dot c)).sub (c.mul (a.dot b)) := by
  simp only [Vec3.cross, Vec3.mul, Vec3.sub, Vec3.dot, Vec3.eq_iff]
  refine ⟨by ring, by ring, by ring⟩

theorem Vec3.dot_add_left (u v w : Vec3) : (u.add v).dot w = u.dot w + v.dot w := by
  simp only [Vec3.add, Vec3.dot]; ring

theorem Vec3.dot_sub_left (u v w : Vec3) : (u.sub v).dot w = u.dot w - v.dot w := by
  simp only [Vec3.sub, Vec3.dot]; ring

theorem Vec3.mul_mul (v : Vec3) (a b : ℝ) : (v.mul a).mul b = v.mul (a * b) := by
  simp only [Vec3.mul, Vec3.eq_iff]
  refine ⟨by ring, by ring, by ring⟩

theorem Vec3.mul_one' (v : Vec3) : v.mul 1 = v := by
  simp only [Vec3.mul, Vec3.eq_iff]
  refine ⟨by ring, by ring, by ring⟩

theorem Vec3.normalize_formula {v : Vec3} (h : v.dot v ≠ 0) :
    v.normalize = v.mul (Real.sqrt (v.dot v))⁻¹ := by
  rw [Vec3.normalize, if_neg h]

theorem Vec3.normalize_is_unit {v : Vec3} (h : v.dot v ≠ 0) :
    v.normalize.dot v.normalize = 1 := by
  rw [Vec3.normalize_formula h, Vec3.dot_mul_left, Vec3.dot_mul_right]
  have hnn : 0 ≤ v.dot v := v.dot_self_nonneg
  have hs : Real.sqrt (v.dot v) * Real.sqrt (v.dot v) = v.dot v :=
    Real.mul_self_sqrt hnn
  have hs0 : Real.sqrt (v.dot v) ≠ 0 := by
    rw [ne_eq, Real.sqrt_eq_zero hnn]
    exact h
  field_simp

/-! ### Elementary facts about the tolerance comparison -/

theorem approxEqual_refl (v : Vec3) : approxEqual v v := by
  simp only [approxEqual, sub_self, abs_zero]
  norm_num

/-! ### Evaluation helpers for concrete inputs -/

theorem round_eq_of_bounds {x : ℝ} {n : ℤ} (h1 : (n : ℝ) ≤ x + 1 / 2)
    (h2 : x + 1 / 2 < n + 1) : round x = n := by
  rw [round_eq, Int.floor_eq_iff]
  exact ⟨h1, h2⟩

theorem snap1_intCast (n : ℤ) : snap1 (n : ℝ) = n := by
  simp [snap1]

theorem snap1_zero : snap1 0 = 0 := by
  simpa using snap1_intCast 0

theorem snap1_one : snap1 1 = 1 := by
  simpa using snap1_intCast 1

theorem snap1_neg_one : snap1 (-1) = -1 := by
  simpa using snap1_intCast (-1)

/-- A value whose distance to the integer `n ∈ {-1, 0, 1}`-range integer is
at least the tolerance is left unchanged by snapping. -/
theorem snap1_of_far {x : ℝ} {n : ℤ} (hround : round x = n)
    (hfar : ¬ |x - (n : ℝ)| < 1e-15) : snap1 x = x := by
  rw [snap1, hround, if_neg hfar]

/-- A value within tolerance of the integer it rounds to snaps to it. -/
theorem snap1_of_close {x : ℝ} {n : ℤ} (hround : round x = n)
    (hclose : |x - (n : ℝ)| < 1e-15) : snap1 x = n := by
  rw [snap1, hround, if_pos hclose]

theorem pfll_north : pointFromLatLng ⟨Real.pi / 2, 0⟩ = ⟨0, 0, 1⟩ := by
  simp [pointFromLatLng, Vec3.eq_iff]

theorem pfll_south : pointFromLatLng ⟨-(Real.pi / 2), 0⟩ = ⟨0, 0, -1⟩ := by
  simp [pointFromLatLng, Vec3.eq_iff]

theorem pfll_origin : pointFromLatLng ⟨0, 0⟩ = ⟨1, 0, 0⟩ := by
  simp [pointFromLatLng, Vec3.eq_iff]

theorem pfll_antimeridian : pointFromLatLng ⟨0, Real.pi⟩ = ⟨-1, 0, 0⟩ := by
  simp [pointFromLatLng, Vec3.eq_iff]

theorem snapToInts_001 : snapToInts ⟨0, 0, 1⟩ = ⟨0, 0, 1⟩ := by
  simp [snapToInts, snap1_zero, snap1_one, Vec3.eq_iff]

theorem snapToInts_00m1 : snapToInts ⟨0, 0, -1⟩ = ⟨0, 0, -1⟩ := by
  simp [snapToInts, snap1_zero, snap1_neg_one, Vec3.eq_iff]

theorem snapToInts_100 : snapToInts ⟨1, 0, 0⟩ = ⟨1, 0, 0⟩ := by
  simp [snapToInts, snap1_zero, snap1_one, Vec3.eq_iff]

theorem snapToInts_m100 : snapToInts ⟨-1, 0, 0⟩ = ⟨-1, 0, 0⟩ := by
  simp [snapToInts, snap1_zero, snap1_neg_one, Vec3.eq_iff]

/-- Closed form of `New` in the antipodal branch. -/
theorem New_antipodal_eval {pll nll : LatLng} {P N : Vec3}
    (hP : snapToInts (pointFromLatLng pll) = P)
    (hN : snapToInts (pointFromLatLng nll) = N)
    (hne : ¬ approxEqual P N) (hanti : approxEqual P (N.mul (-1))) :
    New pll nll = some ⟨P, N, tieBreakI P,
      ((P.sub N).normalize).cross (tieBreakI P), (P.sub N).normalize, ⊤⟩ := by
  simp only [New, hP, hN, if_neg hne, if_pos hanti, tieBreakI]

/-- Closed form of `New` in the non-antipodal branch when the denominator
`1 + pos·neg` does not vanish. -/
theorem New_generic_eval {pll nll : LatLng} {P N : Vec3}
    (hP : snapToInts (pointFromLatLng pll) = P)
    (hN : snapToInts (pointFromLatLng nll) = N)
    (hne : ¬ approxEqual P N) (hnanti : ¬ approxEqual P (N.mul (-1)))
    (hden : 1 + P.dot N ≠ 0) :
    New pll nll = some ⟨P, N, (P.add N).normalize,
      ((P.sub N).normalize).cross ((P.add N).normalize), (P.sub N).normalize,
      (((P.add N).norm / (1 + P.dot N) : ℝ) : EReal)⟩ := by
  simp only [New, hP, hN, if_neg hne, if_neg hnanti, if_neg hden]

/-- Closed form of `New` in the non-antipodal branch when the denominator
`1 + pos·neg` vanishes exactly: the float quotient for `t` is `+Inf`. -/
theorem New_generic_inf_eval {pll nll : LatLng} {P N : Vec3}
    (hP : snapToInts (pointFromLatLng pll) = P)
    (hN : snapToInts (pointFromLatLng nll) = N)
    (hne : ¬ approxEqual P N) (hnanti : ¬ approxEqual P (N.mul (-1)))
    (hden : 1 + P.dot N = 0) :
    New pll nll = some ⟨P, N, (P.add N).normalize,
      ((P.sub N).normalize).cross ((P.add N).normalize), (P.sub N).normalize,
      ⊤⟩ := by
  simp only [New, hP, hN, if_neg hne, if_neg hnanti, if_pos hden]

theorem sin_atan2 (y x : ℝ) :
    Real.sin (atan2 y x) = y / Real.sqrt (x ^ 2 + y ^ 2) := by
  rw [atan2, Complex.sin_arg, Complex.abs_apply, Complex.normSq_mk]
  norm_num [sq]

theorem cos_atan2 {y x : ℝ} (h : ¬ (x = 0 ∧ y = 0)) :
    Real.cos (atan2 y x) = x / Real.sqrt (x ^ 2 + y ^ 2) := by
  have hz : (⟨x, y⟩ : ℂ) ≠ 0 := by
    simp only [ne_eq, Complex.ext_iff, Complex.zero_re, Complex.zero_im]
    exact h
  rw [atan2, Complex.cos_arg hz, Complex.abs_apply, Complex.normSq_mk]
  norm_num [sq]

theorem New_merc : New ⟨Real.pi / 2, 0⟩ ⟨-(Real.pi / 2), 0⟩ = some mercFrame := by
  have hsub : ((⟨0, 0, 1⟩ : Vec3).sub ⟨0, 0, -1⟩) = (⟨0, 0, 1⟩ : Vec3).mul 2 := by
    simp [Vec3.sub, Vec3.mul, Vec3.eq_iff]; norm_num
  have hnorm : ((⟨0, 0, 1⟩ : Vec3).sub ⟨0, 0, -1⟩).normalize = ⟨0, 0, 1⟩ := by
    rw [hsub]
    exact Vec3.normalize_smul_of_unit (by simp [Vec3.dot]) (by norm_num)
  have hP : snapToInts (pointFromLatLng ⟨Real.pi / 2, 0⟩) = ⟨0, 0, 1⟩ := by
    rw [pfll_north]; exact snapToInts_001
  have hN : snapToInts (pointFromLatLng ⟨-(Real.pi / 2), 0⟩) = ⟨0, 0, -1⟩ := by
    rw [pfll_south]; exact snapToInts_00m1
  rw [New_antipodal_eval hP hN
      (by simp [approxEqual]; norm_num)
      (by simp [approxEqual, Vec3.mul]; norm_num)]
  rw [mercFrame, hnorm]
  have hi : tieBreakI ⟨0, 0, 1⟩ = ⟨1, 0, 0⟩ := by simp [tieBreakI]
  rw [hi]
  have hj : (⟨0, 0, 1⟩ : Vec3).cross ⟨1, 0, 0⟩ = ⟨0, 1, 0⟩ := by
    simp [Vec3.cross, Vec3.eq_iff]
  rw [hj]

theorem New_equator : New ⟨0, 0⟩ ⟨0, Real.pi⟩ = some equatorFrame := by
  have hP : snapToInts (pointFromLatLng ⟨0, 0⟩) = ⟨1, 0, 0⟩ := by
    rw [pfll_origin]; exact snapToInts_100
  have hN : snapToInts (pointFromLatLng ⟨0, Real.pi⟩) = ⟨-1, 0, 0⟩ := by
    rw [pfll_antimeridian]; exact snapToInts_m100
  have hsub : ((⟨1, 0, 0⟩ : Vec3).sub ⟨-1, 0, 0⟩) = (⟨1, 0, 0⟩ : Vec3).mul 2 := by
    simp [Vec3.sub, Vec3.mul, Vec3.eq_iff]; norm_num
  have hnorm : ((⟨1, 0, 0⟩ : Vec3).sub ⟨-1, 0, 0⟩).normalize = ⟨1, 0, 0⟩ := by
    rw [hsub]
    exact Vec3.normalize_smul_of_unit (by simp [Vec3.dot]) (by norm_num)
  rw [New_antipodal_eval hP hN
      (by simp [approxEqual]; norm_num)
      (by simp [approxEqual, Vec3.mul]; norm_num)]
  rw [equatorFrame, hnorm]
  have hi : tieBreakI ⟨1, 0, 0⟩ = ⟨0, 0, 1⟩ := by
    rw [tieBreakI]
    norm_num
  rw [hi]
  have hj : (⟨1, 0, 0⟩ : Vec3).cross ⟨0, 0, 1⟩ = ⟨0, -1, 0⟩ := by
    simp [Vec3.cross, Vec3.eq_iff]
  rw [hj]

/-! ### Claim theorems -/

/-- C3: `New` fails (returns `none`, modelling the Go panic) exactly when the
two snapped unit vectors differ by less than `1e-15` in every component; in
particular `New P P` always fails.  `Project` and `Unproject` are total
functions of the embedding, so no other operation can fail. -/
theorem C3_new_fails_iff_close : ∀ p n : LatLng,
    (New p n = none ↔
      approxEqual (snapToInts (pointFromLatLng p)) (snapToInts (pointFromLatLng n))) ∧
    New p p = none := by
  intro p n
  constructor
  · by_cases h : approxEqual (snapToInts (pointFromLatLng p)) (snapToInts (pointFromLatLng n))
    · simp [New, h]
    · simp only [New, if_neg h]
      constructor
      · intro hcontra
        split at hcontra <;> simp_all
      · intro hcontra
        exact absurd hcontra h
  · simp [New, approxEqual_refl]

/-- C10: `Unproject` is `2π`-periodic in the horizontal coordinate: shifting
a finite planar point by `2π` in `x` yields the same spherical output. -/
theorem C10_unproject_two_pi_periodic :
    ∀ (gm : GeneralizedMercator) (x y : ℝ),
      Unproject gm ⟨x + 2 * Real.pi, (y : EReal)⟩ = Unproject gm ⟨x, (y : EReal)⟩ := by
  intro gm x y
  have hP : ∀ py, unprojectPoint gm (x + 2 * Real.pi) py = unprojectPoint gm x py := by
    intro py
    simp only [unprojectPoint, rotate, Real.cos_add_two_pi, Real.sin_add_two_pi]
  simp only [Unproject, EReal.coe_ne_top, EReal.coe_ne_bot, if_false, hP]

/-- C2 (amended): `Project` returns `(0, +∞)` on any input within tolerance
of `pos`; it returns `(0, −∞)` on any input within tolerance of `neg` that is
not also within tolerance of `pos` (the `pos` test has priority); `Unproject`
maps `(x, +∞)` to the spherical coordinates of `pos` and `(x, −∞)` to those
of `neg`, for every finite `x`. -/
theorem C2_pole_behavior_amended :
    ∀ (gm : GeneralizedMercator) (ll : LatLng) (x : ℝ),
      (approxEqual (pointFromLatLng ll) gm.pos → Project gm ll = ⟨0, ⊤⟩) ∧
      (¬ approxEqual (pointFromLatLng ll) gm.pos →
        approxEqual (pointFromLatLng ll) gm.neg → Project gm ll = ⟨0, ⊥⟩) ∧
      Unproject gm ⟨x, ⊤⟩ = latLngFromPoint gm.pos ∧
      Unproject gm ⟨x, ⊥⟩ = latLngFromPoint gm.neg := by
  intro gm ll x
  refine ⟨fun h => ?_, fun h1 h2 => ?_, ?_, ?_⟩
  · simp [Project, h]
  · simp [Project, h1, h2]
  · simp [Unproject]
  · simp [Unproject]

/-- Witness for C2 (amended): on the classical Mercator frame, a point at
the positive pole projects to `(0, +∞)`, a point at the negative pole (and
away from the positive one) projects to `(0, −∞)`, and `Unproject` maps
`(5, ±∞)` to the respective poles. -/
theorem C2_pole_behavior_amended_witness :
    approxEqual (pointFromLatLng ⟨Real.pi / 2, 0⟩) mercFrame.pos ∧
    ¬ approxEqual (pointFromLatLng ⟨-(Real.pi / 2), 0⟩) mercFrame.pos ∧
    approxEqual (pointFromLatLng ⟨-(Real.pi / 2), 0⟩) mercFrame.neg ∧
    Project mercFrame ⟨Real.pi / 2, 0⟩ = ⟨0, ⊤⟩ ∧
    Project mercFrame ⟨-(Real.pi / 2), 0⟩ = ⟨0, ⊥⟩ ∧
    Unproject mercFrame ⟨5, ⊤⟩ = latLngFromPoint mercFrame.pos ∧
    Unproject mercFrame ⟨5, ⊥⟩ = latLngFromPoint mercFrame.neg := by
  have h1 : approxEqual (pointFromLatLng ⟨Real.pi / 2, 0⟩) mercFrame.pos := by
    rw [pfll_north]; exact approxEqual_refl _
  have h2 : ¬ approxEqual (pointFromLatLng ⟨-(Real.pi / 2), 0⟩) mercFrame.pos := by
    rw [pfll_south]
    simp [approxEqual, mercFrame]
    norm_num
  have h3 : approxEqual (pointFromLatLng ⟨-(Real.pi / 2), 0⟩) mercFrame.neg := by
    rw [pfll_south]; exact approxEqual_refl _
  exact ⟨h1, h2, h3,
    (C2_pole_behavior_amended mercFrame ⟨Real.pi / 2, 0⟩ 5).1 h1,
    ((C2_pole_behavior_amended mercFrame ⟨-(Real.pi / 2), 0⟩ 5).2.1 h2 h3),
    (C2_pole_behavior_amended mercFrame ⟨Real.pi / 2, 0⟩ 5).2.2.1,
    (C2_pole_behavior_amended mercFrame ⟨Real.pi / 2, 0⟩ 5).2.2.2⟩

theorem tieBreak_core {phi l : ℝ} (h1 : -(Real.pi / 2) ≤ phi)
    (h2 : phi ≤ Real.pi / 2) (hx : Real.cos l * Real.cos phi ≠ 0)
    (hz : 0 < Real.sin phi) :
    (⟨Real.cos (atan2 (-Real.cos l) (Real.tan phi)), 0,
      Real.sin (atan2 (-Real.cos l) (Real.tan phi))⟩ : Vec3) =
    ⟨Real.sin phi / Real.sqrt (Real.sin phi ^ 2 + (Real.cos l * Real.cos phi) ^ 2), 0,
      -(Real.cos l * Real.cos phi) /
        Real.sqrt (Real.sin phi ^ 2 + (Real.cos l * Real.cos phi) ^ 2)⟩ := by
  have hc : Real.cos phi ≠ 0 := fun h => hx (by rw [h, mul_zero])
  have hcpos : 0 < Real.cos phi :=
    lt_of_le_of_ne (Real.cos_nonneg_of_mem_Icc ⟨h1, h2⟩) (Ne.symm hc)
  have hl : Real.cos l ≠ 0 := fun h => hx (by rw [h, zero_mul])
  have htan : Real.tan phi = Real.sin phi / Real.cos phi := Real.tan_eq_sin_div_cos phi
  set s := Real.sin phi with hs
  set c := Real.cos phi with hcdef
  set L := Real.cos l with hL
  set S := s ^ 2 + (L * c) ^ 2 with hSdef
  have hSpos : 0 < S := add_pos_of_pos_of_nonneg (pow_pos hz 2) (sq_nonneg _)
  have hsqS : 0 < Real.sqrt S := Real.sqrt_pos.mpr hSpos
  have harg : ¬ (Real.tan phi = 0 ∧ -L = 0) := by
    rintro ⟨ht, -⟩
    rw [htan, div_eq_zero_iff] at ht
    rcases ht with ht | ht
    · exact absurd ht (ne_of_gt hz)
    · exact hc ht
  have key : Real.sqrt ((Real.tan phi) ^ 2 + (-L) ^ 2) = Real.sqrt S / c := by
    rw [htan]
    have hq : (s / c) ^ 2 + (-L) ^ 2 = S / c ^ 2 := by
      field_simp
      ring
    rw [hq, Real.sqrt_div hSpos.le, Real.sqrt_sq hcpos.le]
  rw [Vec3.eq_iff]
  refine ⟨?_, rfl, ?_⟩
  · show Real.cos (atan2 (-L) (Real.tan phi)) = s / Real.sqrt S
    rw [cos_atan2 harg, key, htan]
    field_simp
  · show Real.sin (atan2 (-L) (Real.tan phi)) = -(L * c) / Real.sqrt S
    rw [sin_atan2, key]
    field_simp

theorem crossNormalize_pos {P : Vec3} (hx : P.x ≠ 0) (hz : 0 < P.z) :
    ((⟨0, P.z, 0⟩ : Vec3).cross P).normalize =
    ⟨P.z / Real.sqrt (P.z ^ 2 + P.x ^ 2), 0, -P.x / Real.sqrt (P.z ^ 2 + P.x ^ 2)⟩ := by
  have hcross : (⟨0, P.z, 0⟩ : Vec3).cross P = ⟨P.z * P.z, 0, -(P.z * P.x)⟩ := by
    rw [Vec3.cross, Vec3.eq_iff]
    refine ⟨by ring, by ring, by ring⟩
  set S := P.z ^ 2 + P.x ^ 2 with hSdef
  have hSpos : 0 < S := add_pos_of_pos_of_nonneg (pow_pos hz 2) (sq_nonneg _)
  have hsqS : 0 < Real.sqrt S := Real.sqrt_pos.mpr hSpos
  have hdot : (⟨P.z * P.z, 0, -(P.z * P.x)⟩ : Vec3).dot ⟨P.z * P.z, 0, -(P.z * P.x)⟩
      = P.z ^ 2 * S := by
    rw [Vec3.dot, hSdef]
    ring
  have hsqrt : Real.sqrt (P.z ^ 2 * S) = P.z * Real.sqrt S := by
    rw [Real.sqrt_mul (sq_nonneg _), Real.sqrt_sq_eq_abs, abs_of_pos hz]
  rw [hcross, Vec3.normalize, hdot, if_neg (by positivity), hsqrt]
  rw [Vec3.mul, Vec3.eq_iff]
  refine ⟨?_, by simp, ?_⟩
  · show P.z * P.z * (P.z * Real.sqrt S)⁻¹ = P.z / Real.sqrt S
    field_simp
    ring
  · show -(P.z * P.x) * (P.z * Real.sqrt S)⁻¹ = -P.x / Real.sqrt S
    field_simp
    ring

theorem crossNormalize_neg {P : Vec3} (hx : P.x ≠ 0) (hz : P.z < 0) :
    ((⟨0, P.z, 0⟩ : Vec3).cross P).normalize =
    ⟨-P.z / Real.sqrt (P.z ^ 2 + P.x ^ 2), 0, P.x / Real.sqrt (P.z ^ 2 + P.x ^ 2)⟩ := by
  have hcross : (⟨0, P.z, 0⟩ : Vec3).cross P = ⟨P.z * P.z, 0, -(P.z * P.x)⟩ := by
    rw [Vec3.cross, Vec3.eq_iff]
    refine ⟨by ring, by ring, by ring⟩
  set S := P.z ^ 2 + P.x ^ 2 with hSdef
  have hSpos : 0 < S := by positivity
  have hsqS : 0 < Real.sqrt S := Real.sqrt_pos.mpr hSpos
  have hdot : (⟨P.z * P.z, 0, -(P.z * P.x)⟩ : Vec3).dot ⟨P.z * P.z, 0, -(P.z * P.x)⟩
      = P.z ^ 2 * S := by
    rw [Vec3.dot, hSdef]
    ring
  have hsqrt : Real.sqrt (P.z ^ 2 * S) = -P.z * Real.sqrt S := by
    rw [Real.sqrt_mul (sq_nonneg _), Real.sqrt_sq_eq_abs, abs_of_neg hz]
  have hz' : P.z ≠ 0 := ne_of_lt hz
  rw [hcross, Vec3.normalize, hdot, if_neg (by positivity), hsqrt]
  rw [Vec3.mul, Vec3.eq_iff]
  refine ⟨?_, by simp, ?_⟩
  · show P.z * P.z * (-P.z * Real.sqrt S)⁻¹ = -P.z / Real.sqrt S
    rw [eq_div_iff (ne_of_gt hsqS)]
    field_simp
    ring
  · show -(P.z * P.x) * (-P.z * Real.sqrt S)⁻¹ = P.x / Real.sqrt S
    rw [eq_div_iff (ne_of_gt hsqS)]
    field_simp
    ring

/-- C7: the current antipodal default tie-break `normalize((0, pos.z, 0) × pos)`
agrees with the historical formula `(cos φ, 0, sin φ)`,
`φ = atan2(−cos lng, tan lat)` taken from whichever input pole has
non-negative latitude, for exactly antipodal unit poles with `pos.x ≠ 0`
and `pos.z ≠ 0`. -/
theorem C7_tie_break_equivalence (posLL negLL : LatLng)
    (hp1 : -(Real.pi / 2) ≤ posLL.lat) (hp2 : posLL.lat ≤ Real.pi / 2)
    (hn1 : -(Real.pi / 2) ≤ negLL.lat) (hn2 : negLL.lat ≤ Real.pi / 2)
    (hanti : pointFromLatLng negLL = (pointFromLatLng posLL).mul (-1))
    (hx : (pointFromLatLng posLL).x ≠ 0) (hz : (pointFromLatLng posLL).z ≠ 0) :
    tieBreakIOld posLL negLL = tieBreakI (pointFromLatLng posLL) := by
  have hπ : 0 < Real.pi := Real.pi_pos
  set P := pointFromLatLng posLL with hPdef
  have hPx : P.x = Real.cos posLL.lng * Real.cos posLL.lat := rfl
  have hPz : P.z = Real.sin posLL.lat := rfl
  rw [tieBreakI, if_neg hx, if_neg hz]
  by_cases hlt : posLL.lat < 0
  · -- the historical code reads the `neg` pole, which has positive latitude
    have hzneg : P.z < 0 := by
      rw [hPz]
      exact Real.sin_neg_of_neg_of_neg_pi_lt hlt (by linarith)
    have hQx : (pointFromLatLng negLL).x = -P.x := by
      rw [hanti]
      show P.x * (-1) = -P.x
      ring
    have hQz : (pointFromLatLng negLL).z = -P.z := by
      rw [hanti]
      show P.z * (-1) = -P.z
      ring
    have hQxval : Real.cos negLL.lng * Real.cos negLL.lat = -P.x := hQx
    have hQzval : Real.sin negLL.lat = -P.z := hQz
    have hcore := tieBreak_core hn1 hn2
      (by rw [hQxval]; exact neg_ne_zero.mpr hx)
      (by rw [hQzval]; linarith)
    rw [tieBreakIOld]
    simp only [if_pos hlt]
    rw [hcore, hQxval, hQzval]
    rw [crossNormalize_neg hx hzneg]
    rw [Vec3.eq_iff]
    have hsq : (-P.z) ^ 2 + (-P.x) ^ 2 = P.z ^ 2 + P.x ^ 2 := by ring
    rw [hsq]
    refine ⟨rfl, rfl, by ring⟩
  · have hzpos : 0 < P.z := by
      rcases lt_or_eq_of_le (Real.sin_nonneg_of_nonneg_of_le_pi
        (by linarith) (by linarith) : 0 ≤ Real.sin posLL.lat) with h | h
      · exact h
      · exact absurd h.symm (hPz ▸ hz)
    have hcore := tieBreak_core hp1 hp2 (hPx ▸ hx) (hPz ▸ hzpos)
    rw [tieBreakIOld]
    simp only [if_neg hlt]
    rw [hcore]
    rw [crossNormalize_pos hx hzpos]
    rw [Vec3.eq_iff]
    refine ⟨rfl, rfl, rfl⟩

/-- Witness for C7: the two tie-break formulas agree on the concrete
antipodal pair at latitudes `±π/4`, longitudes `0` and `π`. -/
theorem C7_tie_break_equivalence_witness :
    (-(Real.pi / 2) ≤ (Real.pi / 4 : ℝ) ∧ (Real.pi / 4 : ℝ) ≤ Real.pi / 2 ∧
      -(Real.pi / 2) ≤ (-(Real.pi / 4) : ℝ) ∧ (-(Real.pi / 4) : ℝ) ≤ Real.pi / 2 ∧
      pointFromLatLng ⟨-(Real.pi / 4), Real.pi⟩ =
        (pointFromLatLng ⟨Real.pi / 4, 0⟩).mul (-1) ∧
      (pointFromLatLng ⟨Real.pi / 4, 0⟩).x ≠ 0 ∧
      (pointFromLatLng ⟨Real.pi / 4, 0⟩).z ≠ 0) ∧
    tieBreakIOld ⟨Real.pi / 4, 0⟩ ⟨-(Real.pi / 4), Real.pi⟩ =
      tieBreakI (pointFromLatLng ⟨Real.pi / 4, 0⟩) := by
  have hπ : 0 < Real.pi := Real.pi_pos
  have hcos4 : Real.cos (Real.pi / 4) = Real.sqrt 2 / 2 := Real.cos_pi_div_four
  have hsin4 : Real.sin (Real.pi / 4) = Real.sqrt 2 / 2 := Real.sin_pi_div_four
  have hs2 : 0 < Real.sqrt 2 := Real.sqrt_pos.mpr (by norm_num)
  have h1 : -(Real.pi / 2) ≤ (Real.pi / 4 : ℝ) := by linarith
  have h2 : (Real.pi / 4 : ℝ) ≤ Real.pi / 2 := by linarith
  have h3 : -(Real.pi / 2) ≤ (-(Real.pi / 4) : ℝ) := by linarith
  have h4 : (-(Real.pi / 4) : ℝ) ≤ Real.pi / 2 := by linarith
  have h5 : pointFromLatLng ⟨-(Real.pi / 4), Real.pi⟩ =
      (pointFromLatLng ⟨Real.pi / 4, 0⟩).mul (-1) := by
    simp only [pointFromLatLng, Vec3.mul, Vec3.eq_iff, Real.cos_pi, Real.sin_pi,
      Real.cos_neg, Real.sin_neg, Real.cos_zero, Real.sin_zero]
    refine ⟨by ring, by ring, by ring⟩
  have h6 : (pointFromLatLng ⟨Real.pi / 4, 0⟩).x ≠ 0 := by
    show Real.cos 0 * Real.cos (Real.pi / 4) ≠ 0
    rw [Real.cos_zero, one_mul, hcos4]
    positivity
  have h7 : (pointFromLatLng ⟨Real.pi / 4, 0⟩).z ≠ 0 := by
    show Real.sin (Real.pi / 4) ≠ 0
    rw [hsin4]
    positivity
  exact ⟨⟨h1, h2, h3, h4, h5, h6, h7⟩,
    C7_tie_break_equivalence ⟨Real.pi / 4, 0⟩ ⟨-(Real.pi / 4), Real.pi⟩
      h1 h2 h3 h4 h5 h6 h7⟩

/-- C6: `New` on the two antipodal fixtures produces exactly the stated
frames: true poles give the identity basis with `t = +∞`, and the equatorial
antipodes at longitudes `0` and `π` give `i=(0,0,1)`, `j=(0,−1,0)`,
`k=(1,0,0)` with `t = +∞` (the branch tests `pos.x = 0` and `pos.z = 0`
fire exactly on the snapped vectors). -/
theorem C6_antipodal_fixture_frames :
    New ⟨Real.pi / 2, 0⟩ ⟨-(Real.pi / 2), 0⟩ =
      some ⟨⟨0, 0, 1⟩, ⟨0, 0, -1⟩, ⟨1, 0, 0⟩, ⟨0, 1, 0⟩, ⟨0, 0, 1⟩, ⊤⟩ ∧
    New ⟨0, 0⟩ ⟨0, Real.pi⟩ =
      some ⟨⟨1, 0, 0⟩, ⟨-1, 0, 0⟩, ⟨0, 0, 1⟩, ⟨0, -1, 0⟩, ⟨1, 0, 0⟩, ⊤⟩ := by
  exact ⟨New_merc, New_equator⟩

/-! ### Structure of frames built by New -/

theorem tieBreakI_unit_orth {P : Vec3} :
    (tieBreakI P).dot (tieBreakI P) = 1 ∧ (tieBreakI P).dot P = 0 := by
  rw [tieBreakI]
  split_ifs with hx hz
  · exact ⟨by simp [Vec3.dot], by simp [Vec3.dot, hx]⟩
  · exact ⟨by simp [Vec3.dot], by simp [Vec3.dot, hz]⟩
  · have hcross : (⟨0, P.z, 0⟩ : Vec3).cross P = ⟨P.z * P.z, 0, -(P.z * P.x)⟩ := by
      rw [Vec3.cross, Vec3.eq_iff]
      refine ⟨by ring, by ring, by ring⟩
    have hz2 : 0 < P.z ^ 2 :=
      lt_of_le_of_ne (sq_nonneg _) (Ne.symm (pow_ne_zero 2 hz))
    have hx2 : 0 < P.x ^ 2 :=
      lt_of_le_of_ne (sq_nonneg _) (Ne.symm (pow_ne_zero 2 hx))
    have hdotval : ((⟨0, P.z, 0⟩ : Vec3).cross P).dot ((⟨0, P.z, 0⟩ : Vec3).cross P)
        = P.z ^ 2 * (P.z ^ 2 + P.x ^ 2) := by
      rw [hcross, Vec3.dot]
      ring
    have hne : ((⟨0, P.z, 0⟩ : Vec3).cross P).dot ((⟨0, P.z, 0⟩ : Vec3).cross P) ≠ 0 := by
      rw [hdotval]
      have : 0 < P.z ^ 2 * (P.z ^ 2 + P.x ^ 2) := by
        apply mul_pos hz2
        linarith
      exact ne_of_gt this
    constructor
    · exact Vec3.normalize_is_unit hne
    · rw [Vec3.normalize_formula hne, Vec3.dot_mul_left,
        Vec3.dot_cross_right, mul_zero]

theorem New_frame_structure {pll nll : LatLng} {gm : GeneralizedMercator}
    (hNew : New pll nll = some gm)
    (hupos : gm.pos.dot gm.pos = 1) (huneg : gm.neg.dot gm.neg = 1)
    (hexact : approxEqual gm.pos (gm.neg.mul (-1)) → gm.pos = gm.neg.mul (-1)) :
    goodGM gm ∧ gm.k = (gm.pos.sub gm.neg).normalize := by
  by_cases h1 : approxEqual (snapToInts (pointFromLatLng pll))
      (snapToInts (pointFromLatLng nll))
  · simp only [New] at hNew
    rw [if_pos h1] at hNew
    exact absurd hNew (by simp)
  · by_cases h2 : approxEqual (snapToInts (pointFromLatLng pll))
        ((snapToInts (pointFromLatLng nll)).mul (-1))
    · rw [New_antipodal_eval rfl rfl h1 h2] at hNew
      have hrec := Option.some.inj hNew
      subst hrec
      dsimp only at hupos huneg hexact ⊢
      set P := snapToInts (pointFromLatLng pll) with hPdef
      set N := snapToInts (pointFromLatLng nll) with hNdef
      have hPN : P = N.mul (-1) := hexact h2
      have hNP : N = P.mul (-1) := by
        rw [hPN, Vec3.mul_mul]
        norm_num
        rw [Vec3.mul_one']
      have hsub : P.sub N = P.mul 2 := by
        rw [hNP, Vec3.sub, Vec3.mul, Vec3.mul, Vec3.eq_iff]
        refine ⟨by ring, by ring, by ring⟩
      have hknorm : (P.sub N).normalize = P := by
        rw [hsub]
        exact Vec3.normalize_smul_of_unit hupos (by norm_num)
      have hti := tieBreakI_unit_orth (P := P)
      rw [goodGM]
      dsimp only
      rw [hknorm]
      refine ⟨⟨hti.1, hupos, ?_, rfl, ?_, ?_, ?_, ?_⟩, rfl⟩
      · exact hti.2
      · simp
      · simp
      · simp only [EReal.toReal_top, inv_zero]
        rw [Vec3.eq_iff]
        simp only [Vec3.mul, Vec3.add]
        norm_num
      · simp only [EReal.toReal_top, inv_zero]
        rw [hNP, Vec3.eq_iff]
        simp only [Vec3.mul, Vec3.sub]
        norm_num
    · have h3 : 1 + (snapToInts (pointFromLatLng pll)).dot
          (snapToInts (pointFromLatLng nll)) ≠ 0 := by
        intro hc
        rw [New_generic_inf_eval rfl rfl h1 h2 hc] at hNew
        have hrec := Option.some.inj hNew
        subst hrec
        dsimp only at hupos huneg
        have hzero : ((snapToInts (pointFromLatLng pll)).add
            (snapToInts (pointFromLatLng nll))).dot
            ((snapToInts (pointFromLatLng pll)).add
              (snapToInts (pointFromLatLng nll))) = 0 := by
          simp only [Vec3.add, Vec3.dot] at hupos huneg hc ⊢
          linarith
        have hsum := Vec3.dot_self_eq_zero_iff.mp hzero
        have hPeq : snapToInts (pointFromLatLng pll) =
            (snapToInts (pointFromLatLng nll)).mul (-1) := by
          rw [Vec3.eq_iff] at hsum ⊢
          simp only [Vec3.add] at hsum
          simp only [Vec3.mul]
          obtain ⟨e1, e2, e3⟩ := hsum
          exact ⟨by linarith, by linarith, by linarith⟩
        exact h2 (hPeq ▸ approxEqual_refl _)
      rw [New_generic_eval rfl rfl h1 h2 h3] at hNew
      have hrec := Option.some.inj hNew
      subst hrec
      dsimp only at hupos huneg hexact ⊢
      set P := snapToInts (pointFromLatLng pll) with hPdef
      set N := snapToInts (pointFromLatLng nll) with hNdef
      set c := P.dot N with hcdef
      have hA : (P.add N).dot (P.add N) = 2 + 2 * c := by
        simp only [Vec3.add, Vec3.dot] at hupos huneg hcdef ⊢
        linarith
      have hD : (P.sub N).dot (P.sub N) = 2 - 2 * c := by
        simp only [Vec3.sub, Vec3.dot] at hupos huneg hcdef ⊢
        linarith
      have hcle : c ≤ 1 := by
        have := Vec3.dot_self_nonneg (P.sub N)
        rw [hD] at this
        linarith
      have hcge : -1 ≤ c := by
        have := Vec3.dot_self_nonneg (P.add N)
        rw [hA] at this
        linarith
      have hcne1 : c ≠ 1 := by
        intro hc
        have hzero : (P.sub N).dot (P.sub N) = 0 := by rw [hD, hc]; ring
        have := Vec3.dot_self_eq_zero_iff.mp hzero
        have hPeq : P = N := by
          rw [Vec3.eq_iff] at this ⊢
          simp only [Vec3.sub] at this
          obtain ⟨e1, e2, e3⟩ := this
          exact ⟨by linarith, by linarith, by linarith⟩
        exact h1 (hPeq ▸ approxEqual_refl P)
      have hcnem1 : c ≠ -1 := by
        intro hc
        have hzero : (P.add N).dot (P.add N) = 0 := by rw [hA, hc]; ring
        have := Vec3.dot_self_eq_zero_iff.mp hzero
        have hPeq : P = N.mul (-1) := by
          rw [Vec3.eq_iff] at this ⊢
          simp only [Vec3.add] at this
          simp only [Vec3.mul]
          obtain ⟨e1, e2, e3⟩ := this
          exact ⟨by linarith, by linarith, by linarith⟩
        exact h2 (hPeq ▸ approxEqual_refl _)
      have hclt : c < 1 := lt_of_le_of_ne hcle hcne1
      have hcgt : -1 < c := lt_of_le_of_ne hcge (Ne.symm hcnem1)
      have hApos : 0 < 2 + 2 * c := by linarith
      have hDpos : 0 < 2 - 2 * c := by linarith
      have hAne : (P.add N).dot (P.add N) ≠ 0 := by rw [hA]; linarith
      have hDne : (P.sub N).dot (P.sub N) ≠ 0 := by rw [hD]; linarith
      have hsqA : Real.sqrt (2 + 2 * c) > 0 := Real.sqrt_pos.mpr hApos
      have hsqD : Real.sqrt (2 - 2 * c) > 0 := Real.sqrt_pos.mpr hDpos
      have hiform : (P.add N).normalize = (P.add N).mul (Real.sqrt (2 + 2 * c))⁻¹ := by
        rw [Vec3.normalize_formula hAne, hA]
      have hkform : (P.sub N).normalize = (P.sub N).mul (Real.sqrt (2 - 2 * c))⁻¹ := by
        rw [Vec3.normalize_formula hDne, hD]
      have hnormA : (P.add N).norm = Real.sqrt (2 + 2 * c) := by
        rw [Vec3.norm, hA]
      have htval : ((((P.add N).norm / (1 + P.dot N) : ℝ) : EReal)).toReal
          = Real.sqrt (2 + 2 * c) / (1 + c) := by
        rw [EReal.toReal_coe, hnormA, hcdef]
      have h1c : (0:ℝ) < 1 + c := by linarith
      have hmulself : Real.sqrt (2 + 2 * c) * Real.sqrt (2 + 2 * c) = 2 + 2 * c :=
        Real.mul_self_sqrt hApos.le
      have hmulselfD : Real.sqrt (2 - 2 * c) * Real.sqrt (2 - 2 * c) = 2 - 2 * c :=
        Real.mul_self_sqrt hDpos.le
      have hinv : (Real.sqrt (2 + 2 * c) / (1 + c))⁻¹ = (1 + c) / Real.sqrt (2 + 2 * c) :=
        inv_div _ _
      have hinvlt : (1 + c) / Real.sqrt (2 + 2 * c) < 1 := by
        rw [div_lt_one hsqA]
        nlinarith [hmulself, Real.sqrt_nonneg (2 + 2 * c), sq_nonneg (Real.sqrt (2 + 2 * c) - (1 + c))]
      have hinvsq : ((1 + c) / Real.sqrt (2 + 2 * c)) ^ 2 = (1 + c) / 2 := by
        rw [div_pow]
        rw [sq (Real.sqrt (2 + 2 * c)), hmulself]
        rw [sq]
        field_simp
        ring
      have hb : Real.sqrt (1 - (1 + c) / 2) = Real.sqrt ((1 - c) / 2) := by
        congr 1
        ring
      rw [goodGM]
      dsimp only
      rw [htval, hinv, hinvsq, hb]
      have hhalfpos : 0 < Real.sqrt ((1 - c) / 2) :=
        Real.sqrt_pos.mpr (by linarith)
      have h4 : Real.sqrt (2 - 2 * c) = 2 * Real.sqrt ((1 - c) / 2) := by
        rw [show (2 - 2 * c : ℝ) = 4 * ((1 - c) / 2) by ring,
          Real.sqrt_mul (by norm_num : (0:ℝ) ≤ 4),
          show (4:ℝ) = 2 ^ 2 by norm_num, Real.sqrt_sq (by norm_num : (0:ℝ) ≤ 2)]
      have hrb : (Real.sqrt (2 - 2 * c))⁻¹ * Real.sqrt ((1 - c) / 2) = 1 / 2 := by
        rw [h4]
        rw [mul_inv, mul_assoc, inv_mul_cancel₀ (ne_of_gt hhalfpos), mul_one]
        norm_num
      have hsb : (Real.sqrt (2 + 2 * c))⁻¹ * ((1 + c) / Real.sqrt (2 + 2 * c)) = 1 / 2 := by
        rw [inv_mul_eq_div, div_div]
        rw [hmulself]
        rw [div_eq_div_iff (by linarith) (by norm_num : (2:ℝ) ≠ 0)]
        ring
      refine ⟨⟨Vec3.normalize_is_unit hAne, Vec3.normalize_is_unit hDne, ?_, rfl,
        by positivity, hinvlt, ?_, ?_⟩, rfl⟩
      · rw [hiform, hkform, Vec3.dot_mul_left, Vec3.dot_mul_right]
        have : (P.add N).dot (P.sub N) = 0 := by
          simp only [Vec3.add, Vec3.sub, Vec3.dot] at hupos huneg ⊢
          linarith
        rw [this]
        ring
      · rw [hiform, hkform, Vec3.mul_mul, Vec3.mul_mul, hrb, hsb]
        rw [Vec3.eq_iff]
        simp only [Vec3.mul, Vec3.add, Vec3.sub]
        refine ⟨by ring, by ring, by ring⟩
      · rw [hiform, hkform, Vec3.mul_mul, Vec3.mul_mul, hrb, hsb]
        rw [Vec3.eq_iff]
        simp only [Vec3.mul, Vec3.add, Vec3.sub]
        refine ⟨by ring, by ring, by ring⟩

/-- C4 (amended): for every frame built by `New` whose snapped poles are
exactly unit vectors and exactly antipodal whenever the antipodal branch is
taken, the basis vectors are pairwise orthogonal unit vectors forming a
right-handed triple, with `k = normalize(pos − neg)` and `j = k × i`.
(Without these exactness hypotheses the claim fails, see the
counterexample.) -/
theorem C4_orthonormal_basis_amended {pll nll : LatLng} {gm : GeneralizedMercator}
    (hNew : New pll nll = some gm)
    (hupos : gm.pos.dot gm.pos = 1) (huneg : gm.neg.dot gm.neg = 1)
    (hexact : approxEqual gm.pos (gm.neg.mul (-1)) → gm.pos = gm.neg.mul (-1)) :
    gm.i.dot gm.i = 1 ∧ gm.j.dot gm.j = 1 ∧ gm.k.dot gm.k = 1 ∧
    gm.i.dot gm.j = 0 ∧ gm.i.dot gm.k = 0 ∧ gm.j.dot gm.k = 0 ∧
    gm.i.cross gm.j = gm.k ∧
    gm.k = (gm.pos.sub gm.neg).normalize ∧ gm.j = gm.k.cross gm.i := by
  obtain ⟨⟨hii, hkk, hik, hj, -, -, -, -⟩, hkdef⟩ :=
    New_frame_structure hNew hupos huneg hexact
  have hki : gm.k.dot gm.i = 0 := by rw [Vec3.dot_comm]; exact hik
  have hjj : gm.j.dot gm.j = 1 := by
    rw [hj, Vec3.lagrange, hkk, hii, hki]
    norm_num
  have hij : gm.i.dot gm.j = 0 := by
    rw [hj, Vec3.dot_comm]
    exact Vec3.dot_cross_right gm.k gm.i
  have hjk : gm.j.dot gm.k = 0 := by
    rw [hj]
    exact Vec3.dot_cross_left gm.k gm.i
  have hcross : gm.i.cross gm.j = gm.k := by
    rw [hj, Vec3.a_cross_bc, hii, hik]
    rw [Vec3.eq_iff]
    simp only [Vec3.mul, Vec3.sub]
    refine ⟨by ring, by ring, by ring⟩
  exact ⟨hii, hjj, hkk, hij, hik, hjk, hcross, hkdef, hj⟩

/-- Witness for C4 (amended): the classical Mercator frame has exactly
orthonormal right-handed basis data. -/
theorem C4_orthonormal_basis_amended_witness :
    New ⟨Real.pi / 2, 0⟩ ⟨-(Real.pi / 2), 0⟩ = some mercFrame ∧
    mercFrame.pos.dot mercFrame.pos = 1 ∧
    mercFrame.neg.dot mercFrame.neg = 1 ∧
    (mercFrame.i.dot mercFrame.i = 1 ∧ mercFrame.j.dot mercFrame.j = 1 ∧
      mercFrame.k.dot mercFrame.k = 1 ∧ mercFrame.i.dot mercFrame.j = 0 ∧
      mercFrame.i.dot mercFrame.k = 0 ∧ mercFrame.j.dot mercFrame.k = 0 ∧
      mercFrame.i.cross mercFrame.j = mercFrame.k ∧
      mercFrame.k = (mercFrame.pos.sub mercFrame.neg).normalize ∧
      mercFrame.j = mercFrame.k.cross mercFrame.i) := by
  have h2 : mercFrame.pos.dot mercFrame.pos = 1 := by
    simp [mercFrame, Vec3.dot]
  have h3 : mercFrame.neg.dot mercFrame.neg = 1 := by
    simp [mercFrame, Vec3.dot]
  have h4 : approxEqual mercFrame.pos (mercFrame.neg.mul (-1)) →
      mercFrame.pos = mercFrame.neg.mul (-1) := by
    intro _
    simp [mercFrame, Vec3.mul, Vec3.eq_iff]
  exact ⟨New_merc, h2, h3,
    C4_orthonormal_basis_amended New_merc h2 h3 h4⟩

/-- C5 (amended): for every frame built by `New`, `t = +∞` exactly when the
snapped poles are antipodal within componentwise tolerance `1e-15` or the
denominator `1 + pos·neg` vanishes exactly (there the float quotient for
`t` is `+Inf`); when neither holds, `t = ‖pos + neg‖ / (1 + pos·neg)`; and
whenever the snapped poles are exactly unit vectors, `t ≥ 1`.  (For
non-unit snapped poles `t ≥ 1` can fail, and `t = +∞` can occur with poles
that are not antipodal within tolerance; see the counterexample.) -/
theorem C5_t_value_amended {pll nll : LatLng} {gm : GeneralizedMercator}
    (hNew : New pll nll = some gm) :
    (gm.t = ⊤ ↔ (approxEqual gm.pos (gm.neg.mul (-1)) ∨
      1 + gm.pos.dot gm.neg = 0)) ∧
    (¬ approxEqual gm.pos (gm.neg.mul (-1)) → 1 + gm.pos.dot gm.neg ≠ 0 →
      gm.t = (((gm.pos.add gm.neg).norm / (1 + gm.pos.dot gm.neg) : ℝ) : EReal)) ∧
    (gm.pos.dot gm.pos = 1 → gm.neg.dot gm.neg = 1 → (1 : EReal) ≤ gm.t) := by
  by_cases h1 : approxEqual (snapToInts (pointFromLatLng pll))
      (snapToInts (pointFromLatLng nll))
  · simp only [New] at hNew
    rw [if_pos h1] at hNew
    exact absurd hNew (by simp)
  · by_cases h2 : approxEqual (snapToInts (pointFromLatLng pll))
        ((snapToInts (pointFromLatLng nll)).mul (-1))
    · rw [New_antipodal_eval rfl rfl h1 h2] at hNew
      have hrec := Option.some.inj hNew
      subst hrec
      dsimp only
      exact ⟨⟨fun _ => Or.inl h2, fun _ => rfl⟩, fun hc _ => absurd h2 hc,
        fun _ _ => le_top⟩
    · by_cases h3 : 1 + (snapToInts (pointFromLatLng pll)).dot
          (snapToInts (pointFromLatLng nll)) = 0
      · rw [New_generic_inf_eval rfl rfl h1 h2 h3] at hNew
        have hrec := Option.some.inj hNew
        subst hrec
        dsimp only
        exact ⟨⟨fun _ => Or.inr h3, fun _ => rfl⟩, fun _ hc => absurd h3 hc,
          fun _ _ => le_top⟩
      · rw [New_generic_eval rfl rfl h1 h2 h3] at hNew
        have hrec := Option.some.inj hNew
        subst hrec
        dsimp only
        refine ⟨⟨fun hc => absurd hc (EReal.coe_ne_top _), fun hc => ?_⟩,
          fun _ _ => rfl, fun hupos huneg => ?_⟩
        · rcases hc with hc | hc
          · exact absurd hc h2
          · exact absurd hc h3
        · set P := snapToInts (pointFromLatLng pll) with hPdef
          set N := snapToInts (pointFromLatLng nll) with hNdef
          set c := P.dot N with hcdef
          have hA : (P.add N).dot (P.add N) = 2 + 2 * c := by
            simp only [Vec3.add, Vec3.dot] at hupos huneg hcdef ⊢
            linarith
          have hD : (P.sub N).dot (P.sub N) = 2 - 2 * c := by
            simp only [Vec3.sub, Vec3.dot] at hupos huneg hcdef ⊢
            linarith
          have hcle : c ≤ 1 := by
            have := Vec3.dot_self_nonneg (P.sub N)
            rw [hD] at this
            linarith
          have hcnem1 : c ≠ -1 := by
            intro hc
            exact h3 (by rw [hc]; ring)
          have hcge : -1 ≤ c := by
            have := Vec3.dot_self_nonneg (P.add N)
            rw [hA] at this
            linarith
          have hcgt : -1 < c := lt_of_le_of_ne hcge (Ne.symm hcnem1)
          have h1c : (0:ℝ) < 1 + c := by linarith
          have hnormA : (P.add N).norm = Real.sqrt (2 + 2 * c) := by
            rw [Vec3.norm, hA]
          have hge : (1:ℝ) ≤ (P.add N).norm / (1 + P.dot N) := by
            rw [hnormA, le_div_iff h1c, one_mul]
            have : (1 + c) ^ 2 ≤ 2 + 2 * c := by nlinarith
            nlinarith [Real.sq_sqrt (by linarith : (0:ℝ) ≤ 2 + 2 * c),
              Real.sqrt_nonneg (2 + 2 * c), this,
              sq_nonneg (Real.sqrt (2 + 2 * c) - (1 + c))]
          calc (1 : EReal) = ((1:ℝ) : EReal) := by norm_num
          _ ≤ (((P.add N).norm / (1 + P.dot N) : ℝ) : EReal) := by
              exact_mod_cast hge

/-- Witness for C5 (amended): the classical Mercator frame has exactly unit
poles, antipodal within tolerance, and indeed `t = +∞ ≥ 1`. -/
theorem C5_t_value_amended_witness :
    New ⟨Real.pi / 2, 0⟩ ⟨-(Real.pi / 2), 0⟩ = some mercFrame ∧
    mercFrame.pos.dot mercFrame.pos = 1 ∧
    mercFrame.neg.dot mercFrame.neg = 1 ∧
    (mercFrame.t = ⊤ ↔ (approxEqual mercFrame.pos (mercFrame.neg.mul (-1)) ∨
      1 + mercFrame.pos.dot mercFrame.neg = 0)) ∧
    (1 : EReal) ≤ mercFrame.t := by
  have h2 : mercFrame.pos.dot mercFrame.pos = 1 := by
    simp [mercFrame, Vec3.dot]
  have h3 : mercFrame.neg.dot mercFrame.neg = 1 := by
    simp [mercFrame, Vec3.dot]
  exact ⟨New_merc, h2, h3, (C5_t_value_amended New_merc).1,
    (C5_t_value_amended New_merc).2.2 h2 h3⟩

/-! ### Numeric bounds driving the snapping decisions -/

theorem snap1_cos_one_of_small {u : ℝ} (h0 : 0 ≤ u) (h1 : u ^ 2 < 2e-15) :
    snap1 (Real.cos u) = 1 := by
  have hlb : 1 - 1e-15 < Real.cos u := by
    have := Real.one_sub_sq_div_two_le_cos (x := u)
    nlinarith
  have hub := Real.cos_le_one u
  have hround : round (Real.cos u) = 1 :=
    round_eq_of_bounds (by push_cast; nlinarith) (by push_cast; nlinarith)
  have h := snap1_of_close hround (by
    rw [abs_lt]
    constructor <;> push_cast <;> nlinarith)
  simpa using h

theorem snap1_neg_cos_of_small {u : ℝ} (h0 : 0 ≤ u) (h1 : u ^ 2 < 2e-15) :
    snap1 (-Real.cos u) = -1 := by
  have hlb : 1 - 1e-15 < Real.cos u := by
    have := Real.one_sub_sq_div_two_le_cos (x := u)
    nlinarith
  have hub := Real.cos_le_one u
  have hround : round (-Real.cos u) = -1 :=
    round_eq_of_bounds (by push_cast; nlinarith) (by push_cast; nlinarith)
  have h := snap1_of_close hround (by
    rw [abs_lt]
    constructor <;> push_cast <;> nlinarith)
  simpa using h

theorem snap1_small_id {x : ℝ} (hlo : 1e-15 ≤ |x|) (hhi : |x| < 1 / 2) :
    snap1 x = x := by
  obtain ⟨hl, hr⟩ := abs_lt.mp hhi
  have hround : round x = 0 :=
    round_eq_of_bounds (by push_cast; linarith) (by push_cast; linarith)
  refine snap1_of_far hround ?_
  push_cast
  rw [sub_zero]
  exact not_lt.mpr hlo

theorem sin_small_window {u : ℝ} (h0 : 2e-15 ≤ u) (h1 : u ≤ 1 / 2) :
    1e-15 ≤ |Real.sin u| ∧ |Real.sin u| < 1 / 2 := by
  have hu0 : (0:ℝ) < u := lt_of_lt_of_le (by norm_num) h0
  have hpos : 0 < Real.sin u :=
    Real.sin_pos_of_pos_of_lt_pi hu0 (by nlinarith [Real.pi_gt_three])
  have habs : |Real.sin u| = Real.sin u := abs_of_pos hpos
  have hgt := Real.sin_gt_sub_cube hu0 (by linarith : u ≤ 1)
  have hlt := Real.sin_lt hu0
  constructor
  · rw [habs]
    nlinarith [sq_nonneg u, mul_nonneg hu0.le (sq_nonneg u)]
  · rw [habs]
    linarith

theorem snap1_sin_id {u : ℝ} (h0 : 2e-15 ≤ u) (h1 : u ≤ 1 / 2) :
    snap1 (Real.sin u) = Real.sin u :=
  snap1_small_id (sin_small_window h0 h1).1 (sin_small_window h0 h1).2

theorem snap1_neg_sin_id {u : ℝ} (h0 : 2e-15 ≤ u) (h1 : u ≤ 1 / 2) :
    snap1 (-Real.sin u) = -Real.sin u := by
  have h := sin_small_window h0 h1
  exact snap1_small_id (by rw [abs_neg]; exact h.1) (by rw [abs_neg]; exact h.2)

theorem snapped_pole_small {u : ℝ} (h0 : 2e-15 ≤ u) (h1 : u ≤ 1 / 2)
    (hsq : u ^ 2 < 2e-15) :
    snapToInts (pointFromLatLng ⟨u, 0⟩) = ⟨1, 0, Real.sin u⟩ := by
  have hp : pointFromLatLng ⟨u, 0⟩ = ⟨Real.cos u, 0, Real.sin u⟩ := by
    simp [pointFromLatLng, Vec3.eq_iff]
  rw [hp, snapToInts, Vec3.eq_iff]
  exact ⟨snap1_cos_one_of_small (by linarith) hsq, snap1_zero, snap1_sin_id h0 h1⟩

theorem snapped_pole_anti {w : ℝ} (h0 : 2e-15 ≤ w) (h1 : w ≤ 1 / 2)
    (hsq : w ^ 2 < 2e-15) :
    snapToInts (pointFromLatLng ⟨-w, Real.pi⟩) = ⟨-1, 0, -Real.sin w⟩ := by
  have hp : pointFromLatLng ⟨-w, Real.pi⟩ = ⟨-Real.cos w, 0, -Real.sin w⟩ := by
    simp [pointFromLatLng, Vec3.eq_iff]
  rw [hp, snapToInts, Vec3.eq_iff]
  exact ⟨snap1_neg_cos_of_small (by linarith) hsq, snap1_zero, snap1_neg_sin_id h0 h1⟩

/-- Two-sided bound on `sin a − sin b` for `0 ≤ b < a ≤ 1/2`. -/
theorem sin_sub_bounds {a b : ℝ} (hb : 0 ≤ b) (hab : b < a) (ha : a ≤ 1 / 2) :
    2 * ((a - b) / 2 - ((a - b) / 2) ^ 3 / 4) * (1 - a ^ 2 / 2) <
      Real.sin a - Real.sin b ∧
    Real.sin a - Real.sin b ≤ a - b := by
  have hd0 : 0 < (a - b) / 2 := by linarith
  have hd1 : (a - b) / 2 ≤ 1 := by linarith
  have hsd := Real.sin_gt_sub_cube hd0 hd1
  have hsd2 := Real.sin_le hd0.le
  have hm0 : 0 ≤ (a + b) / 2 := by linarith
  have hcm : 1 - ((a + b) / 2) ^ 2 / 2 ≤ Real.cos ((a + b) / 2) :=
    Real.one_sub_sq_div_two_le_cos
  have hcm1 : Real.cos ((a + b) / 2) ≤ 1 := Real.cos_le_one _
  have hrw := Real.sin_sub_sin a b
  have hdsq : ((a - b) / 2) ^ 2 ≤ 1 := by nlinarith
  have hd3 : ((a - b) / 2) ^ 3 ≤ (a - b) / 2 := by
    nlinarith [mul_le_mul_of_nonneg_left hdsq hd0.le]
  have hsinpos : 0 < Real.sin ((a - b) / 2) := by linarith
  constructor
  · rw [hrw]
    have hlow : 1 - a ^ 2 / 2 ≤ 1 - ((a + b) / 2) ^ 2 / 2 := by nlinarith
    have hfac : 0 < (a - b) / 2 - ((a - b) / 2) ^ 3 / 4 := by linarith
    have hcpos : 0 < 1 - a ^ 2 / 2 := by nlinarith
    nlinarith [mul_lt_mul_of_pos_right hsd hcpos]
  · rw [hrw]
    nlinarith

/-! ### The degenerate frame from a snapped non-unit pole -/

theorem snapped_south : snapToInts (pointFromLatLng ⟨-(Real.pi / 2), 0⟩) = ⟨0, 0, -1⟩ := by
  rw [pfll_south]
  exact snapToInts_00m1

theorem New_degFrame :
    New ⟨1e-8, 0⟩ ⟨-(Real.pi / 2), 0⟩ = some degFrame := by
  have hP : snapToInts (pointFromLatLng ⟨1e-8, 0⟩) = ⟨1, 0, Real.sin 1e-8⟩ :=
    snapped_pole_small (by norm_num) (by norm_num) (by norm_num)
  have hne : ¬ approxEqual (⟨1, 0, Real.sin 1e-8⟩ : Vec3) ⟨0, 0, -1⟩ := by
    rintro ⟨c1, -, -⟩
    norm_num at c1
  have hnanti : ¬ approxEqual (⟨1, 0, Real.sin 1e-8⟩ : Vec3)
      ((⟨0, 0, -1⟩ : Vec3).mul (-1)) := by
    rintro ⟨c1, -, -⟩
    simp only [Vec3.mul] at c1
    norm_num at c1
  have hden : 1 + (⟨1, 0, Real.sin 1e-8⟩ : Vec3).dot (⟨0, 0, -1⟩ : Vec3) ≠ 0 := by
    simp only [Vec3.dot]
    have := Real.sin_lt (show (0:ℝ) < 1e-8 by norm_num)
    intro hc
    nlinarith
  rw [New_generic_eval hP snapped_south hne hnanti hden]
  rfl

theorem sin_1e8_pos : 0 < Real.sin 1e-8 :=
  Real.sin_pos_of_pos_of_lt_pi (by norm_num) (by nlinarith [Real.pi_gt_three])

/-- C4 counterexample: the frame built from the pole at latitude `1e-8`
(and the south pole) has `i · k ≠ 0`: its basis is not orthogonal. -/
theorem C4_orthonormal_basis_cex :
    New ⟨1e-8, 0⟩ ⟨-(Real.pi / 2), 0⟩ = some degFrame ∧
    degFrame.i.dot degFrame.k ≠ 0 := by
  refine ⟨New_degFrame, ?_⟩
  have hs := sin_1e8_pos
  show (((⟨1, 0, Real.sin 1e-8⟩ : Vec3).add ⟨0, 0, -1⟩).normalize).dot
      ((((⟨1, 0, Real.sin 1e-8⟩ : Vec3).sub ⟨0, 0, -1⟩)).normalize) ≠ 0
  have hAval : ((⟨1, 0, Real.sin 1e-8⟩ : Vec3).add ⟨0, 0, -1⟩).dot
      ((⟨1, 0, Real.sin 1e-8⟩ : Vec3).add ⟨0, 0, -1⟩)
      = 1 + (Real.sin 1e-8 - 1) ^ 2 := by
    simp only [Vec3.add, Vec3.dot]
    ring
  have hDval : ((⟨1, 0, Real.sin 1e-8⟩ : Vec3).sub ⟨0, 0, -1⟩).dot
      ((⟨1, 0, Real.sin 1e-8⟩ : Vec3).sub ⟨0, 0, -1⟩)
      = 1 + (Real.sin 1e-8 + 1) ^ 2 := by
    simp only [Vec3.sub, Vec3.dot]
    ring
  have hAne : ((⟨1, 0, Real.sin 1e-8⟩ : Vec3).add ⟨0, 0, -1⟩).dot
      ((⟨1, 0, Real.sin 1e-8⟩ : Vec3).add ⟨0, 0, -1⟩) ≠ 0 := by
    rw [hAval]
    nlinarith [sq_nonneg (Real.sin 1e-8 - 1)]
  have hDne : ((⟨1, 0, Real.sin 1e-8⟩ : Vec3).sub ⟨0, 0, -1⟩).dot
      ((⟨1, 0, Real.sin 1e-8⟩ : Vec3).sub ⟨0, 0, -1⟩) ≠ 0 := by
    rw [hDval]
    nlinarith [sq_nonneg (Real.sin 1e-8 + 1)]
  rw [Vec3.normalize_formula hAne, Vec3.normalize_formula hDne,
    Vec3.dot_mul_left, Vec3.dot_mul_right]
  have hinner : ((⟨1, 0, Real.sin 1e-8⟩ : Vec3).add ⟨0, 0, -1⟩).dot
      ((⟨1, 0, Real.sin 1e-8⟩ : Vec3).sub ⟨0, 0, -1⟩) = Real.sin 1e-8 ^ 2 := by
    simp only [Vec3.add, Vec3.sub, Vec3.dot]
    ring
  rw [hinner]
  have h1 : (Real.sqrt (((⟨1, 0, Real.sin 1e-8⟩ : Vec3).add ⟨0, 0, -1⟩).dot
      ((⟨1, 0, Real.sin 1e-8⟩ : Vec3).add ⟨0, 0, -1⟩)))⁻¹ ≠ 0 := by
    refine inv_ne_zero ?_
    rw [ne_eq, Real.sqrt_eq_zero (Vec3.dot_self_nonneg _)]
    exact hAne
  have h2 : (Real.sqrt (((⟨1, 0, Real.sin 1e-8⟩ : Vec3).sub ⟨0, 0, -1⟩).dot
      ((⟨1, 0, Real.sin 1e-8⟩ : Vec3).sub ⟨0, 0, -1⟩)))⁻¹ ≠ 0 := by
    refine inv_ne_zero ?_
    rw [ne_eq, Real.sqrt_eq_zero (Vec3.dot_self_nonneg _)]
    exact hDne
  exact mul_ne_zero h1 (mul_ne_zero h2 (pow_ne_zero 2 (ne_of_gt hs)))

/-- C9 counterexample: the same frame's stored positive pole has norm
strictly greater than `1`. -/
theorem C9_unit_poles_cex :
    New ⟨1e-8, 0⟩ ⟨-(Real.pi / 2), 0⟩ = some degFrame ∧
    degFrame.pos.norm ≠ 1 := by
  refine ⟨New_degFrame, ?_⟩
  have hs := sin_1e8_pos
  show (⟨1, 0, Real.sin 1e-8⟩ : Vec3).norm ≠ 1
  have hdot : (⟨1, 0, Real.sin 1e-8⟩ : Vec3).dot ⟨1, 0, Real.sin 1e-8⟩
      = 1 + Real.sin 1e-8 ^ 2 := by
    simp only [Vec3.dot]
    ring
  rw [Vec3.norm, hdot]
  have hgt : 1 < Real.sqrt (1 + Real.sin 1e-8 ^ 2) :=
    (Real.lt_sqrt (by norm_num)).mpr (by nlinarith)
  exact (ne_of_lt hgt).symm

/-! ### Closeness of snapped poles to the exact unit vectors -/

theorem snap1_close (x : ℝ) : |snap1 x - x| < 1e-15 := by
  rw [snap1]
  split_ifs with h
  · rwa [abs_sub_comm]
  · rw [sub_self, abs_zero]
    norm_num

theorem pfll_unit (ll : LatLng) :
    (pointFromLatLng ll).dot (pointFromLatLng ll) = 1 := by
  simp only [pointFromLatLng, Vec3.dot]
  linear_combination (Real.cos ll.lat) ^ 2 * Real.sin_sq_add_cos_sq ll.lng +
    Real.sin_sq_add_cos_sq ll.lat

theorem snap_dot_close {v : Vec3} (hunit : v.dot v = 1) :
    |(snapToInts v).dot (snapToInts v) - 1| < 7e-15 := by
  obtain ⟨hx1, hx2⟩ := abs_lt.mp (snap1_close v.x)
  obtain ⟨hy1, hy2⟩ := abs_lt.mp (snap1_close v.y)
  obtain ⟨hz1, hz2⟩ := abs_lt.mp (snap1_close v.z)
  simp only [Vec3.dot] at hunit
  have hx2' : v.x ^ 2 ≤ 1 := by nlinarith [sq_nonneg v.y, sq_nonneg v.z]
  have hy2' : v.y ^ 2 ≤ 1 := by nlinarith [sq_nonneg v.x, sq_nonneg v.z]
  have hz2' : v.z ^ 2 ≤ 1 := by nlinarith [sq_nonneg v.x, sq_nonneg v.y]
  have habs : ∀ x : ℝ, x ^ 2 ≤ 1 → |x * (snap1 x - x)| < 1e-15 := by
    intro x hx
    have hb1 : |x| ≤ 1 := (sq_le_one_iff_abs_le_one x).mp hx
    calc |x * (snap1 x - x)| = |x| * |snap1 x - x| := abs_mul _ _
    _ ≤ 1 * |snap1 x - x| := mul_le_mul_of_nonneg_right hb1 (abs_nonneg _)
    _ = |snap1 x - x| := one_mul _
    _ < 1e-15 := snap1_close x
  obtain ⟨hcx1, hcx2⟩ := abs_lt.mp (habs v.x hx2')
  obtain ⟨hcy1, hcy2⟩ := abs_lt.mp (habs v.y hy2')
  obtain ⟨hcz1, hcz2⟩ := abs_lt.mp (habs v.z hz2')
  have hdx := sq_lt_sq' hx1 hx2
  have hdy := sq_lt_sq' hy1 hy2
  have hdz := sq_lt_sq' hz1 hz2
  simp only [snapToInts, Vec3.dot]
  rw [abs_lt]
  constructor
  · nlinarith [hcx1, hcy1, hcz1, hdx, hdy, hdz,
      sq_nonneg (snap1 v.x - v.x), sq_nonneg (snap1 v.y - v.y),
      sq_nonneg (snap1 v.z - v.z)]
  · nlinarith [hcx2, hcy2, hcz2, hdx, hdy, hdz,
      sq_nonneg (snap1 v.x - v.x), sq_nonneg (snap1 v.y - v.y),
      sq_nonneg (snap1 v.z - v.z)]

theorem approxEqual_snapToInts (v : Vec3) : approxEqual (snapToInts v) v :=
  ⟨snap1_close v.x, snap1_close v.y, snap1_close v.z⟩

theorem New_poles {pll nll : LatLng} {gm : GeneralizedMercator}
    (hNew : New pll nll = some gm) :
    gm.pos = snapToInts (pointFromLatLng pll) ∧
    gm.neg = snapToInts (pointFromLatLng nll) := by
  by_cases h1 : approxEqual (snapToInts (pointFromLatLng pll))
      (snapToInts (pointFromLatLng nll))
  · simp only [New] at hNew
    rw [if_pos h1] at hNew
    exact absurd hNew (by simp)
  · by_cases h2 : approxEqual (snapToInts (pointFromLatLng pll))
        ((snapToInts (pointFromLatLng nll)).mul (-1))
    · rw [New_antipodal_eval rfl rfl h1 h2] at hNew
      have hrec := Option.some.inj hNew
      subst hrec
      exact ⟨rfl, rfl⟩
    · by_cases h3 : 1 + (snapToInts (pointFromLatLng pll)).dot
          (snapToInts (pointFromLatLng nll)) = 0
      · rw [New_generic_inf_eval rfl rfl h1 h2 h3] at hNew
        have hrec := Option.some.inj hNew
        subst hrec
        exact ⟨rfl, rfl⟩
      · rw [New_generic_eval rfl rfl h1 h2 h3] at hNew
        have hrec := Option.some.inj hNew
        subst hrec
        exact ⟨rfl, rfl⟩

/-- C9 (amended): the stored pole vectors are the integer-snapped exact unit
vectors; they lie within the componentwise `1e-15` tolerance of exact unit
vectors and their squared norm is within `7e-15` of `1`, but they need not be
exactly unit (see the counterexample). -/
theorem C9_snapped_poles_amended {pll nll : LatLng} {gm : GeneralizedMercator}
    (hNew : New pll nll = some gm) :
    approxEqual gm.pos (pointFromLatLng pll) ∧
    approxEqual gm.neg (pointFromLatLng nll) ∧
    |gm.pos.dot gm.pos - 1| < 7e-15 ∧ |gm.neg.dot gm.neg - 1| < 7e-15 := by
  obtain ⟨hp, hn⟩ := New_poles hNew
  rw [hp, hn]
  exact ⟨approxEqual_snapToInts _, approxEqual_snapToInts _,
    snap_dot_close (pfll_unit pll), snap_dot_close (pfll_unit nll)⟩

/-- Witness for C9 (amended): the classical Mercator construction. -/
theorem C9_snapped_poles_amended_witness :
    New ⟨Real.pi / 2, 0⟩ ⟨-(Real.pi / 2), 0⟩ = some mercFrame ∧
    approxEqual mercFrame.pos (pointFromLatLng ⟨Real.pi / 2, 0⟩) ∧
    |mercFrame.pos.dot mercFrame.pos - 1| < 7e-15 := by
  refine ⟨New_merc, (C9_snapped_poles_amended New_merc).1,
    (C9_snapped_poles_amended New_merc).2.2.1⟩

/-! ### Frames with nearly coincident and nearly antipodal snapped poles -/

theorem New_closeFrame :
    New ⟨4.4e-8, 0⟩ ⟨4.4e-8 - 1.6e-15, 0⟩ = some closeFrame := by
  have hP : snapToInts (pointFromLatLng ⟨4.4e-8, 0⟩) = ⟨1, 0, Real.sin 4.4e-8⟩ :=
    snapped_pole_small (by norm_num) (by norm_num) (by norm_num)
  have hN : snapToInts (pointFromLatLng ⟨4.4e-8 - 1.6e-15, 0⟩) =
      ⟨1, 0, Real.sin (4.4e-8 - 1.6e-15)⟩ :=
    snapped_pole_small (by norm_num) (by norm_num) (by norm_num)
  have hsep := (sin_sub_bounds (a := 4.4e-8) (b := 4.4e-8 - 1.6e-15)
    (by norm_num) (by norm_num) (by norm_num)).1
  have hne : ¬ approxEqual (⟨1, 0, Real.sin 4.4e-8⟩ : Vec3)
      ⟨1, 0, Real.sin (4.4e-8 - 1.6e-15)⟩ := by
    rintro ⟨-, -, c3⟩
    rw [abs_lt] at c3
    nlinarith [c3.2]
  have hnanti : ¬ approxEqual (⟨1, 0, Real.sin 4.4e-8⟩ : Vec3)
      ((⟨1, 0, Real.sin (4.4e-8 - 1.6e-15)⟩ : Vec3).mul (-1)) := by
    rintro ⟨c1, -, -⟩
    simp only [Vec3.mul] at c1
    norm_num at c1
  have hsu : 0 < Real.sin 4.4e-8 :=
    Real.sin_pos_of_pos_of_lt_pi (by norm_num) (by nlinarith [Real.pi_gt_three])
  have hsw : 0 < Real.sin (4.4e-8 - 1.6e-15) :=
    Real.sin_pos_of_pos_of_lt_pi (by norm_num) (by nlinarith [Real.pi_gt_three])
  have hden : 1 + (⟨1, 0, Real.sin 4.4e-8⟩ : Vec3).dot
      (⟨1, 0, Real.sin (4.4e-8 - 1.6e-15)⟩ : Vec3) ≠ 0 := by
    simp only [Vec3.dot]
    intro hc
    nlinarith [mul_pos hsu hsw]
  rw [New_generic_eval hP hN hne hnanti hden]
  rfl

/-- C2 counterexample: `closeFrame` is a frame built by `New`, the point at
latitude `4.4e-8 − 8e-16` is within tolerance of its negative pole, yet
`Project` does not return `(0, −∞)` on it (the positive-pole test fires
first and `(0, +∞)` is returned). -/
theorem C2_pole_behavior_cex :
    New ⟨4.4e-8, 0⟩ ⟨4.4e-8 - 1.6e-15, 0⟩ = some closeFrame ∧
    approxEqual (pointFromLatLng ⟨4.4e-8 - 8e-16, 0⟩) closeFrame.neg ∧
    Project closeFrame ⟨4.4e-8 - 8e-16, 0⟩ ≠ ⟨0, ⊥⟩ := by
  have hp : pointFromLatLng ⟨4.4e-8 - 8e-16, 0⟩ =
      ⟨Real.cos (4.4e-8 - 8e-16), 0, Real.sin (4.4e-8 - 8e-16)⟩ := by
    simp [pointFromLatLng, Vec3.eq_iff]
  have hcos : |Real.cos (4.4e-8 - 8e-16) - 1| < 1e-15 := by
    have hlb := Real.one_sub_sq_div_two_le_cos (x := (4.4e-8 - 8e-16 : ℝ))
    have hub := Real.cos_le_one (4.4e-8 - 8e-16)
    rw [abs_lt]
    constructor <;> nlinarith
  have hupper := (sin_sub_bounds (a := 4.4e-8) (b := 4.4e-8 - 8e-16)
    (by norm_num) (by norm_num) (by norm_num)).2
  have hlower := (sin_sub_bounds (a := 4.4e-8) (b := 4.4e-8 - 8e-16)
    (by norm_num) (by norm_num) (by norm_num)).1
  have hupper2 := (sin_sub_bounds (a := 4.4e-8 - 8e-16) (b := 4.4e-8 - 1.6e-15)
    (by norm_num) (by norm_num) (by norm_num)).2
  have hlower2 := (sin_sub_bounds (a := 4.4e-8 - 8e-16) (b := 4.4e-8 - 1.6e-15)
    (by norm_num) (by norm_num) (by norm_num)).1
  have hQneg : approxEqual (pointFromLatLng ⟨4.4e-8 - 8e-16, 0⟩) closeFrame.neg := by
    rw [hp]
    show approxEqual _ (⟨1, 0, Real.sin (4.4e-8 - 1.6e-15)⟩ : Vec3)
    refine ⟨hcos, by norm_num, ?_⟩
    rw [abs_lt]
    constructor <;> nlinarith
  have hQpos : approxEqual (pointFromLatLng ⟨4.4e-8 - 8e-16, 0⟩) closeFrame.pos := by
    rw [hp]
    show approxEqual _ (⟨1, 0, Real.sin 4.4e-8⟩ : Vec3)
    refine ⟨hcos, by norm_num, ?_⟩
    rw [abs_sub_comm, abs_lt]
    constructor <;> nlinarith
  have hproj : Project closeFrame ⟨4.4e-8 - 8e-16, 0⟩ = ⟨0, ⊤⟩ := by
    rw [Project]
    simp only [if_pos hQpos]
  refine ⟨New_closeFrame, hQneg, ?_⟩
  rw [hproj]
  intro hcontra
  have := congrArg PlanarPoint.y hcontra
  simp at this

theorem New_negtFrame :
    New ⟨4.4e-8, 0⟩ ⟨-(4.4e-8 - 1.2e-15), Real.pi⟩ = some negtFrame := by
  have hP : snapToInts (pointFromLatLng ⟨4.4e-8, 0⟩) = ⟨1, 0, Real.sin 4.4e-8⟩ :=
    snapped_pole_small (by norm_num) (by norm_num) (by norm_num)
  have hN : snapToInts (pointFromLatLng ⟨-(4.4e-8 - 1.2e-15), Real.pi⟩) =
      ⟨-1, 0, -Real.sin (4.4e-8 - 1.2e-15)⟩ :=
    snapped_pole_anti (by norm_num) (by norm_num) (by norm_num)
  have hne : ¬ approxEqual (⟨1, 0, Real.sin 4.4e-8⟩ : Vec3)
      ⟨-1, 0, -Real.sin (4.4e-8 - 1.2e-15)⟩ := by
    rintro ⟨c1, -, -⟩
    norm_num at c1
  have hsep := (sin_sub_bounds (a := 4.4e-8) (b := 4.4e-8 - 1.2e-15)
    (by norm_num) (by norm_num) (by norm_num)).1
  have hnanti : ¬ approxEqual (⟨1, 0, Real.sin 4.4e-8⟩ : Vec3)
      ((⟨-1, 0, -Real.sin (4.4e-8 - 1.2e-15)⟩ : Vec3).mul (-1)) := by
    rintro ⟨-, -, c3⟩
    simp only [Vec3.mul] at c3
    rw [abs_lt] at c3
    nlinarith [c3.2]
  have hsu : 0 < Real.sin 4.4e-8 :=
    Real.sin_pos_of_pos_of_lt_pi (by norm_num) (by nlinarith [Real.pi_gt_three])
  have hsw : 0 < Real.sin (4.4e-8 - 1.2e-15) :=
    Real.sin_pos_of_pos_of_lt_pi (by norm_num) (by nlinarith [Real.pi_gt_three])
  have hden : 1 + (⟨1, 0, Real.sin 4.4e-8⟩ : Vec3).dot
      (⟨-1, 0, -Real.sin (4.4e-8 - 1.2e-15)⟩ : Vec3) ≠ 0 := by
    simp only [Vec3.dot]
    intro hc
    nlinarith [mul_pos hsu hsw]
  rw [New_generic_eval hP hN hne hnanti hden]
  rfl

theorem New_divzeroFrame :
    New ⟨4.4e-8, 0⟩ ⟨0, Real.pi⟩ = some divzeroFrame := by
  have hP : snapToInts (pointFromLatLng ⟨4.4e-8, 0⟩) = ⟨1, 0, Real.sin 4.4e-8⟩ :=
    snapped_pole_small (by norm_num) (by norm_num) (by norm_num)
  have hN : snapToInts (pointFromLatLng ⟨0, Real.pi⟩) = ⟨-1, 0, 0⟩ := by
    rw [pfll_antimeridian]
    exact snapToInts_m100
  have hne : ¬ approxEqual (⟨1, 0, Real.sin 4.4e-8⟩ : Vec3) ⟨-1, 0, 0⟩ := by
    rintro ⟨c1, -, -⟩
    norm_num at c1
  have hwin := (sin_small_window (u := 4.4e-8) (by norm_num) (by norm_num)).1
  have hnanti : ¬ approxEqual (⟨1, 0, Real.sin 4.4e-8⟩ : Vec3)
      ((⟨-1, 0, 0⟩ : Vec3).mul (-1)) := by
    rintro ⟨-, -, c3⟩
    simp only [Vec3.mul] at c3
    norm_num at c3
    linarith
  have hden : 1 + (⟨1, 0, Real.sin 4.4e-8⟩ : Vec3).dot (⟨-1, 0, 0⟩ : Vec3) = 0 := by
    simp only [Vec3.dot]
    ring
  rw [New_generic_inf_eval hP hN hne hnanti hden]
  rfl

/-- C5 counterexample: `negtFrame` is a frame built by `New` whose scalar
`t` is negative, hence smaller than `1`; and `divzeroFrame` is a frame
built by `New` whose snapped poles are not antipodal within tolerance, yet
whose `t` is `+∞` because `1 + pos·neg` vanishes exactly. -/
theorem C5_t_value_cex :
    (New ⟨4.4e-8, 0⟩ ⟨-(4.4e-8 - 1.2e-15), Real.pi⟩ = some negtFrame ∧
      negtFrame.t < 1) ∧
    (New ⟨4.4e-8, 0⟩ ⟨0, Real.pi⟩ = some divzeroFrame ∧
      ¬ approxEqual divzeroFrame.pos (divzeroFrame.neg.mul (-1)) ∧
      divzeroFrame.t = ⊤) := by
  have hanti : ¬ approxEqual divzeroFrame.pos (divzeroFrame.neg.mul (-1)) := by
    rintro ⟨-, -, c3⟩
    have hwin := (sin_small_window (u := 4.4e-8) (by norm_num) (by norm_num)).1
    simp only [divzeroFrame, Vec3.mul] at c3
    norm_num at c3
    linarith
  refine ⟨⟨New_negtFrame, ?_⟩, New_divzeroFrame, hanti, rfl⟩
  have hsu : 0 < Real.sin 4.4e-8 :=
    Real.sin_pos_of_pos_of_lt_pi (by norm_num) (by nlinarith [Real.pi_gt_three])
  have hsw : 0 < Real.sin (4.4e-8 - 1.2e-15) :=
    Real.sin_pos_of_pos_of_lt_pi (by norm_num) (by nlinarith [Real.pi_gt_three])
  have hsep := (sin_sub_bounds (a := 4.4e-8) (b := 4.4e-8 - 1.2e-15)
    (by norm_num) (by norm_num) (by norm_num)).1
  have hd : 0 < Real.sin 4.4e-8 - Real.sin (4.4e-8 - 1.2e-15) := by nlinarith
  show (((((⟨1, 0, Real.sin 4.4e-8⟩ : Vec3).add
      ⟨-1, 0, -Real.sin (4.4e-8 - 1.2e-15)⟩).norm /
      (1 + (⟨1, 0, Real.sin 4.4e-8⟩ : Vec3).dot
        ⟨-1, 0, -Real.sin (4.4e-8 - 1.2e-15)⟩)) : ℝ) : EReal) < 1
  have hAdot : ((⟨1, 0, Real.sin 4.4e-8⟩ : Vec3).add
      ⟨-1, 0, -Real.sin (4.4e-8 - 1.2e-15)⟩).dot
      ((⟨1, 0, Real.sin 4.4e-8⟩ : Vec3).add
      ⟨-1, 0, -Real.sin (4.4e-8 - 1.2e-15)⟩)
      = (Real.sin 4.4e-8 - Real.sin (4.4e-8 - 1.2e-15)) ^ 2 := by
    simp only [Vec3.add, Vec3.dot]
    ring
  have hnorm : ((⟨1, 0, Real.sin 4.4e-8⟩ : Vec3).add
      ⟨-1, 0, -Real.sin (4.4e-8 - 1.2e-15)⟩).norm
      = Real.sin 4.4e-8 - Real.sin (4.4e-8 - 1.2e-15) := by
    rw [Vec3.norm, hAdot, Real.sqrt_sq hd.le]
  have hdotval : (1 : ℝ) + (⟨1, 0, Real.sin 4.4e-8⟩ : Vec3).dot
      ⟨-1, 0, -Real.sin (4.4e-8 - 1.2e-15)⟩
      = -(Real.sin 4.4e-8 * Real.sin (4.4e-8 - 1.2e-15)) := by
    simp only [Vec3.dot]
    ring
  rw [hnorm, hdotval]
  have hneg : (Real.sin 4.4e-8 - Real.sin (4.4e-8 - 1.2e-15)) /
      -(Real.sin 4.4e-8 * Real.sin (4.4e-8 - 1.2e-15)) < 1 := by
    have : (Real.sin 4.4e-8 - Real.sin (4.4e-8 - 1.2e-15)) /
        -(Real.sin 4.4e-8 * Real.sin (4.4e-8 - 1.2e-15)) < 0 :=
      div_neg_of_pos_of_neg hd (by nlinarith)
    linarith
  rw [show (1 : EReal) = ((1:ℝ) : EReal) from rfl, EReal.coe_lt_coe_iff]
  exact hneg

/-! ### Range of the projected coordinates (C8) -/

theorem New_j {pll nll : LatLng} {gm : GeneralizedMercator}
    (hNew : New pll nll = some gm) : gm.j = gm.k.cross gm.i := by
  by_cases h1 : approxEqual (snapToInts (pointFromLatLng pll))
      (snapToInts (pointFromLatLng nll))
  · simp only [New] at hNew
    rw [if_pos h1] at hNew
    exact absurd hNew (by simp)
  · by_cases h2 : approxEqual (snapToInts (pointFromLatLng pll))
        ((snapToInts (pointFromLatLng nll)).mul (-1))
    · rw [New_antipodal_eval rfl rfl h1 h2] at hNew
      have hrec := Option.some.inj hNew
      subst hrec
      rfl
    · by_cases h3 : 1 + (snapToInts (pointFromLatLng pll)).dot
          (snapToInts (pointFromLatLng nll)) = 0
      · rw [New_generic_inf_eval rfl rfl h1 h2 h3] at hNew
        have hrec := Option.some.inj hNew
        subst hrec
        rfl
      · rw [New_generic_eval rfl rfl h1 h2 h3] at hNew
        have hrec := Option.some.inj hNew
        subst hrec
        rfl

theorem Vec3.normalize_dot_zero {v w : Vec3} (h : v.dot w = 0) :
    v.normalize.dot w = 0 := by
  rw [Vec3.normalize]
  split_ifs with hz
  · simp [Vec3.dot]
  · rw [Vec3.dot_mul_left, h, mul_zero]

theorem rotate_dot_axis (p axis : Vec3) (θ : ℝ) (hpa : p.dot axis = 0) :
    (rotate p axis θ).dot axis = 0 := by
  rw [rotate]
  apply Vec3.normalize_dot_zero
  simp only [Vec3.dot] at hpa
  simp only [Vec3.sub, Vec3.add, Vec3.mul, Vec3.cross, Vec3.dot]
  linear_combination (Real.cos θ * (1 - (axis.x * axis.x + axis.y * axis.y +
    axis.z * axis.z)) + (axis.x * axis.x + axis.y * axis.y + axis.z * axis.z)) * hpa

theorem Vec3.norm_eq_zero_iff {v : Vec3} : v.norm = 0 ↔ v = ⟨0, 0, 0⟩ := by
  rw [Vec3.norm, Real.sqrt_eq_zero' ]
  constructor
  · intro h
    exact Vec3.dot_self_eq_zero_iff.mp (le_antisymm h v.dot_self_nonneg)
  · intro h
    rw [Vec3.dot_self_eq_zero_iff.mpr h]

theorem Vec3.angle_nonneg (v w : Vec3) : 0 ≤ Vec3.angle v w :=
  atan2_nonneg (Vec3.norm_nonneg _)

theorem Vec3.angle_le_pi' (v w : Vec3) : Vec3.angle v w ≤ Real.pi :=
  atan2_le_pi _ _

theorem Vec3.angle_eq_pi_iff' {v w : Vec3} :
    Vec3.angle v w = Real.pi ↔ v.dot w < 0 ∧ (v.cross w).norm = 0 :=
  atan2_eq_pi_iff

theorem Vec3.cross_zero_right (v : Vec3) : v.cross ⟨0, 0, 0⟩ = ⟨0, 0, 0⟩ := by
  simp only [Vec3.cross, Vec3.eq_iff]
  norm_num

/-- The `x` coordinate computed by `Project` lies in `(−π, π]`: the key fact
is that the reference direction is orthogonal to `j`, so an exactly
antiparallel direction cannot have a negative `j` component. -/
theorem copysign_angle_range {ip b j : Vec3} (hipj : ip.dot j = 0) :
    -Real.pi < copysign (Vec3.angle ip b) (b.dot j) ∧
    copysign (Vec3.angle ip b) (b.dot j) ≤ Real.pi := by
  have hπ := Real.pi_pos
  have h0 := Vec3.angle_nonneg ip b
  have h1 := Vec3.angle_le_pi' ip b
  by_cases hs : b.dot j < 0
  · rw [copysign_of_neg _ hs, abs_of_nonneg h0]
    constructor
    · rw [neg_lt_neg_iff]
      rcases lt_or_eq_of_le h1 with h | h
      · exact h
      · exfalso
        obtain ⟨hdot, hcr⟩ := Vec3.angle_eq_pi_iff'.mp h
        have hcz : ip.cross b = ⟨0, 0, 0⟩ := Vec3.norm_eq_zero_iff.mp hcr
        have hid := Vec3.a_cross_bc ip ip b
        rw [hcz, Vec3.cross_zero_right] at hid
        have hdotj := congrArg (fun v => Vec3.dot v j) hid.symm
        simp only [Vec3.dot_sub_left, Vec3.dot_mul_left] at hdotj
        rw [hipj] at hdotj
        have hzj : (⟨0, 0, 0⟩ : Vec3).dot j = 0 := by simp [Vec3.dot]
        rw [hzj] at hdotj
        ring_nf at hdotj
        by_cases hip : ip.dot ip = 0
        · have : ip = ⟨0, 0, 0⟩ := Vec3.dot_self_eq_zero_iff.mp hip
          rw [this] at hdot
          simp [Vec3.dot] at hdot
        · have hbj : b.dot j = 0 := by
            have : ip.dot ip * (b.dot j) = 0 := by linarith [hdotj]
            rcases mul_eq_zero.mp this with h | h
            · exact absurd h hip
            · exact h
          exact absurd hbj (ne_of_lt hs)
    · linarith
  · rw [copysign_of_nonneg _ (not_lt.mp hs), abs_of_nonneg h0]
    exact ⟨by linarith, h1⟩

/-- C8: on every frame built by `New`, for every input not within tolerance
of either pole, `Project` returns an `x` coordinate in `(−π, π]` and a
finite `y` coordinate. -/
theorem C8_projection_range {pll nll ll : LatLng} {gm : GeneralizedMercator}
    (hNew : New pll nll = some gm)
    (hpos : ¬ approxEqual (pointFromLatLng ll) gm.pos)
    (hneg : ¬ approxEqual (pointFromLatLng ll) gm.neg) :
    -Real.pi < (Project gm ll).x ∧ (Project gm ll).x ≤ Real.pi ∧
    (Project gm ll).y ≠ ⊤ ∧ (Project gm ll).y ≠ ⊥ := by
  have hj := New_j hNew
  have hij : gm.i.dot gm.j = 0 := by
    rw [hj, Vec3.dot_comm]
    exact Vec3.dot_cross_right _ _
  have hiprime : ∀ θ : ℝ, (rotate gm.i gm.j θ).dot gm.j = 0 := fun θ =>
    rotate_dot_axis gm.i gm.j θ hij
  rw [Project]
  simp only [if_neg hpos, if_neg hneg]
  refine ⟨?_, ?_, ?_, ?_⟩
  · exact (copysign_angle_range (hiprime _)).1
  · exact (copysign_angle_range (hiprime _)).2
  · exact EReal.coe_ne_top _
  · exact EReal.coe_ne_bot _

/-- Witness for C8: on the classical Mercator frame, projecting the point
at latitude `0`, longitude `0` (away from both poles) gives coordinates in
range. -/
theorem C8_projection_range_witness :
    New ⟨Real.pi / 2, 0⟩ ⟨-(Real.pi / 2), 0⟩ = some mercFrame ∧
    ¬ approxEqual (pointFromLatLng ⟨0, 0⟩) mercFrame.pos ∧
    ¬ approxEqual (pointFromLatLng ⟨0, 0⟩) mercFrame.neg ∧
    (-Real.pi < (Project mercFrame ⟨0, 0⟩).x ∧
      (Project mercFrame ⟨0, 0⟩).x ≤ Real.pi ∧
      (Project mercFrame ⟨0, 0⟩).y ≠ ⊤ ∧ (Project mercFrame ⟨0, 0⟩).y ≠ ⊥) := by
  have hpos : ¬ approxEqual (pointFromLatLng ⟨0, 0⟩) mercFrame.pos := by
    rw [pfll_origin]
    rintro ⟨c1, -, -⟩
    norm_num [mercFrame] at c1
  have hneg : ¬ approxEqual (pointFromLatLng ⟨0, 0⟩) mercFrame.neg := by
    rw [pfll_origin]
    rintro ⟨c1, -, -⟩
    norm_num [mercFrame] at c1
  exact ⟨New_merc, hpos, hneg, C8_projection_range New_merc hpos hneg⟩

/-! ### Calculus of orthonormal right-handed triples -/

theorem Vec3.cross_anticomm (a b : Vec3) : a.cross b = (b.cross a).mul (-1) := by
  simp only [Vec3.cross, Vec3.mul, Vec3.eq_iff]
  refine ⟨by ring, by ring, by ring⟩

theorem Vec3.cross_cross_left (a b c : Vec3) :
    (a.cross b).cross c = (b.mul (c.dot a)).sub (a.mul (c.dot b)) := by
  simp only [Vec3.cross, Vec3.mul, Vec3.sub, Vec3.dot, Vec3.eq_iff]
  refine ⟨by ring, by ring, by ring⟩

theorem goodGM_orthoTriple {gm : GeneralizedMercator} (h : goodGM gm) :
    orthoTriple gm.i gm.j gm.k := by
  obtain ⟨hii, hkk, hik, hj, -, -, -, -⟩ := h
  have hki : gm.k.dot gm.i = 0 := by rw [Vec3.dot_comm]; exact hik
  have hjj : gm.j.dot gm.j = 1 := by
    rw [hj, Vec3.lagrange, hkk, hii, hki]
    norm_num
  have hij : gm.i.dot gm.j = 0 := by
    rw [hj, Vec3.dot_comm]
    exact Vec3.dot_cross_right gm.k gm.i
  have hkj : gm.k.dot gm.j = 0 := by
    rw [hj, Vec3.dot_comm]
    exact Vec3.dot_cross_left gm.k gm.i
  have hcij : gm.i.cross gm.j = gm.k := by
    rw [hj, Vec3.a_cross_bc, hii, hik]
    simp only [Vec3.mul, Vec3.sub, Vec3.eq_iff]
    refine ⟨by ring, by ring, by ring⟩
  have hcjk : gm.j.cross gm.k = gm.i := by
    rw [hj, Vec3.cross_cross_left, hkk, hki]
    simp only [Vec3.mul, Vec3.sub, Vec3.eq_iff]
    refine ⟨by ring, by ring, by ring⟩
  exact ⟨hii, hjj, hkk, hij, hik, hkj, hcij, hcjk, hj.symm⟩

/-- Abbreviation for a linear combination over a triple. -/
theorem combo_dot {i j k : Vec3} (h : orthoTriple i j k) (a b c d e f : ℝ) :
    ((i.mul a).add ((j.mul b).add (k.mul c))).dot
      ((i.mul d).add ((j.mul e).add (k.mul f))) = a * d + b * e + c * f := by
  obtain ⟨hii, hjj, hkk, hij, hik, hkj, -, -, -⟩ := h
  simp only [Vec3.mul, Vec3.add, Vec3.dot] at hii hjj hkk hij hik hkj ⊢
  linear_combination (a * d) * hii + (b * e) * hjj + (c * f) * hkk +
    (a * e + b * d) * hij + (a * f + c * d) * hik + (c * e + b * f) * hkj

theorem combo_cross {i j k : Vec3} (h : orthoTriple i j k) (a b c d e f : ℝ) :
    ((i.mul a).add ((j.mul b).add (k.mul c))).cross
      ((i.mul d).add ((j.mul e).add (k.mul f))) =
    (i.mul (b * f - c * e)).add ((j.mul (c * d - a * f)).add
      (k.mul (a * e - b * d))) := by
  obtain ⟨-, -, -, -, -, -, hcij, hcjk, hcki⟩ := h
  rw [Vec3.eq_iff] at hcij hcjk hcki
  obtain ⟨c1, c2, c3⟩ := hcij
  obtain ⟨d1, d2, d3⟩ := hcjk
  obtain ⟨e1, e2, e3⟩ := hcki
  simp only [Vec3.mul, Vec3.add, Vec3.cross] at c1 c2 c3 d1 d2 d3 e1 e2 e3 ⊢
  rw [Vec3.eq_iff]
  refine ⟨?_, ?_, ?_⟩
  · linear_combination (a * e - b * d) * c1 + (b * f - c * e) * d1 +
      (c * d - a * f) * e1
  · linear_combination (a * e - b * d) * c2 + (b * f - c * e) * d2 +
      (c * d - a * f) * e2
  · linear_combination (a * e - b * d) * c3 + (b * f - c * e) * d3 +
      (c * d - a * f) * e3

theorem combo_i (i j k : Vec3) : (i.mul 1).add ((j.mul 0).add (k.mul 0)) = i := by
  simp only [Vec3.mul, Vec3.add, Vec3.eq_iff]
  refine ⟨by ring, by ring, by ring⟩

theorem combo_j (i j k : Vec3) : (i.mul 0).add ((j.mul 1).add (k.mul 0)) = j := by
  simp only [Vec3.mul, Vec3.add, Vec3.eq_iff]
  refine ⟨by ring, by ring, by ring⟩

theorem combo_k (i j k : Vec3) : (i.mul 0).add ((j.mul 0).add (k.mul 1)) = k := by
  simp only [Vec3.mul, Vec3.add, Vec3.eq_iff]
  refine ⟨by ring, by ring, by ring⟩

/-- Every vector decomposes over a right-handed orthonormal triple. -/
theorem combo_expand {i j k : Vec3} (h : orthoTriple i j k) (v : Vec3) :
    v = (i.mul (i.dot v)).add ((j.mul (j.dot v)).add (k.mul (k.dot v))) := by
  obtain ⟨hii, -, hkk, -, hik, -, -, -, hcki⟩ := h
  have := Vec3.expansion hii hkk hik v
  rw [hcki] at this
  exact this

theorem comboV_dot {i j k : Vec3} (h : orthoTriple i j k) (a b c d e f : ℝ) :
    (comboV i j k a b c).dot (comboV i j k d e f) = a * d + b * e + c * f :=
  combo_dot h a b c d e f

theorem comboV_cross {i j k : Vec3} (h : orthoTriple i j k) (a b c d e f : ℝ) :
    (comboV i j k a b c).cross (comboV i j k d e f) =
      comboV i j k (b * f - c * e) (c * d - a * f) (a * e - b * d) :=
  combo_cross h a b c d e f

theorem comboV_i (i j k : Vec3) : comboV i j k 1 0 0 = i := combo_i i j k

theorem comboV_j (i j k : Vec3) : comboV i j k 0 1 0 = j := combo_j i j k

theorem comboV_k (i j k : Vec3) : comboV i j k 0 0 1 = k := combo_k i j k

theorem comboV_expand {i j k : Vec3} (h : orthoTriple i j k) (v : Vec3) :
    v = comboV i j k (i.dot v) (j.dot v) (k.dot v) :=
  combo_expand h v

theorem comboV_add (i j k : Vec3) (a b c d e f : ℝ) :
    (comboV i j k a b c).add (comboV i j k d e f) =
      comboV i j k (a + d) (b + e) (c + f) := by
  simp only [comboV, Vec3.mul, Vec3.add, Vec3.eq_iff]
  refine ⟨by ring, by ring, by ring⟩

theorem comboV_sub (i j k : Vec3) (a b c d e f : ℝ) :
    (comboV i j k a b c).sub (comboV i j k d e f) =
      comboV i j k (a - d) (b - e) (c - f) := by
  simp only [comboV, Vec3.mul, Vec3.add, Vec3.sub, Vec3.eq_iff]
  refine ⟨by ring, by ring, by ring⟩

theorem comboV_smul (i j k : Vec3) (a b c s : ℝ) :
    (comboV i j k a b c).mul s = comboV i j k (a * s) (b * s) (c * s) := by
  simp only [comboV, Vec3.mul, Vec3.add, Vec3.eq_iff]
  refine ⟨by ring, by ring, by ring⟩

theorem comboV_norm {i j k : Vec3} (h : orthoTriple i j k) (a b c : ℝ) :
    (comboV i j k a b c).norm = Real.sqrt (a ^ 2 + b ^ 2 + c ^ 2) := by
  rw [Vec3.norm, comboV_dot h]
  congr 1
  ring

/-! ### The rotated (primed) basis -/

theorem rot_basis_i {i j k : Vec3} (h : orthoTriple i j k) (β : ℝ) :
    rotate i j β = comboV i j k (Real.cos β) 0 (-Real.sin β) := by
  obtain ⟨hii, hjj, hkk, hij, hik, hkj, hcij, hcjk, hcki⟩ := h
  rw [rotate_closed_form hii hjj hij]
  have hji : j.cross i = k.mul (-1) := by
    rw [Vec3.cross_anticomm, hcij]
  rw [hji]
  simp only [comboV, Vec3.mul, Vec3.add, Vec3.eq_iff]
  refine ⟨by ring, by ring, by ring⟩

theorem rot_basis_k {i j k : Vec3} (h : orthoTriple i j k) (β : ℝ) :
    rotate k j β = comboV i j k (Real.sin β) 0 (Real.cos β) := by
  obtain ⟨hii, hjj, hkk, hij, hik, hkj, hcij, hcjk, hcki⟩ := h
  have hkj' : k.dot j = 0 := hkj
  rw [rotate_closed_form hkk hjj hkj']
  rw [hcjk]
  simp only [comboV, Vec3.mul, Vec3.add, Vec3.eq_iff]
  refine ⟨by ring, by ring, by ring⟩

theorem rot_prime {i j k : Vec3} (h : orthoTriple i j k) (β x : ℝ) :
    rotate (comboV i j k (Real.cos β) 0 (-Real.sin β))
      (comboV i j k (Real.sin β) 0 (Real.cos β)) x =
    comboV i j k (Real.cos β * Real.cos x) (Real.sin x)
      (-Real.sin β * Real.cos x) := by
  have pyth := Real.sin_sq_add_cos_sq β
  have hp : (comboV i j k (Real.cos β) 0 (-Real.sin β)).dot
      (comboV i j k (Real.cos β) 0 (-Real.sin β)) = 1 := by
    rw [comboV_dot h]
    nlinarith
  have ha : (comboV i j k (Real.sin β) 0 (Real.cos β)).dot
      (comboV i j k (Real.sin β) 0 (Real.cos β)) = 1 := by
    rw [comboV_dot h]
    nlinarith
  have hpa : (comboV i j k (Real.cos β) 0 (-Real.sin β)).dot
      (comboV i j k (Real.sin β) 0 (Real.cos β)) = 0 := by
    rw [comboV_dot h]
    ring
  have e1 : (0 : ℝ) * -Real.sin β - Real.cos β * 0 = 0 := by ring
  have e2 : Real.cos β * Real.cos β - Real.sin β * -Real.sin β = 1 := by
    linear_combination pyth
  have e3 : Real.sin β * 0 - 0 * Real.cos β = 0 := by ring
  rw [rotate_closed_form hp ha hpa, comboV_cross h, e1, e2, e3,
    comboV_smul, comboV_smul, comboV_add]
  simp only [comboV, Vec3.mul, Vec3.add, Vec3.eq_iff]
  refine ⟨by ring, by ring, by ring⟩

/-! ### The vertical Mercator transform -/

theorem psi_mem {y : ℝ} :
    -(Real.pi / 2) < 2 * Real.arctan (Real.exp y) - Real.pi / 2 ∧
    2 * Real.arctan (Real.exp y) - Real.pi / 2 < Real.pi / 2 := by
  have h1 := Real.arctan_lt_pi_div_two (Real.exp y)
  have h2 : 0 < Real.arctan (Real.exp y) := by
    rw [show (0:ℝ) = Real.arctan 0 by rw [Real.arctan_zero]]
    exact Real.arctan_strictMono (Real.exp_pos y)
  constructor <;> linarith

theorem mercator_log_round (y : ℝ) :
    Real.log (Real.tan (Real.pi / 4 +
      (2 * Real.arctan (Real.exp y) - Real.pi / 2) / 2)) = y := by
  rw [show Real.pi / 4 + (2 * Real.arctan (Real.exp y) - Real.pi / 2) / 2
      = Real.arctan (Real.exp y) by ring]
  rw [Real.tan_arctan, Real.log_exp]

theorem mercator_psi_round {ψ : ℝ} (h1 : -(Real.pi / 2) < ψ) (h2 : ψ < Real.pi / 2) :
    2 * Real.arctan (Real.exp (Real.log (Real.tan (Real.pi / 4 + ψ / 2)))) -
      Real.pi / 2 = ψ := by
  have hlt : Real.pi / 4 + ψ / 2 < Real.pi / 2 := by linarith
  have hgt : 0 < Real.pi / 4 + ψ / 2 := by linarith [Real.pi_pos]
  have htan : 0 < Real.tan (Real.pi / 4 + ψ / 2) :=
    Real.tan_pos_of_pos_of_lt_pi_div_two hgt hlt
  rw [Real.exp_log htan, Real.arctan_tan (by linarith [Real.pi_pos]) hlt]
  ring

/-! ### Recovering a unit vector from its spherical coordinates -/

theorem pfll_llfp {v : Vec3} (hv : v.dot v = 1) :
    pointFromLatLng (latLngFromPoint v) = v := by
  simp only [Vec3.dot] at hv
  simp only [latLngFromPoint, pointFromLatLng]
  set r := Real.sqrt (v.x * v.x + v.y * v.y) with hr
  have hsq : 0 ≤ v.x * v.x + v.y * v.y := by
    nlinarith [sq_nonneg v.x, sq_nonneg v.y]
  have hrnn : 0 ≤ r := Real.sqrt_nonneg _
  have hr2 : r ^ 2 = v.x * v.x + v.y * v.y := by
    rw [hr, sq, Real.mul_self_sqrt hsq]
  have hone : Real.sqrt (r ^ 2 + v.z ^ 2) = 1 := by
    rw [show r ^ 2 + v.z ^ 2 = 1 by nlinarith, Real.sqrt_one]
  have hlat_s : Real.sin (atan2 v.z r) = v.z := by
    rw [sin_atan2, hone, div_one]
  have hlat_c : Real.cos (atan2 v.z r) = r := by
    have hne : ¬ (r = 0 ∧ v.z = 0) := by
      rintro ⟨h1, h2⟩
      rw [h1] at hr2
      nlinarith
    rw [cos_atan2 hne, hone, div_one]
  by_cases hxy : v.x = 0 ∧ v.y = 0
  · obtain ⟨hx0, hy0⟩ := hxy
    have hr0 : r = 0 := by
      rw [hr, hx0, hy0]
      simp
    rw [Vec3.eq_iff]
    refine ⟨?_, ?_, hlat_s⟩
    · show Real.cos (atan2 v.y v.x) * Real.cos (atan2 v.z r) = v.x
      rw [hlat_c, hr0, mul_zero, hx0]
    · show Real.sin (atan2 v.y v.x) * Real.cos (atan2 v.z r) = v.y
      rw [hlat_c, hr0, mul_zero, hy0]
  · have hpos : 0 < v.x * v.x + v.y * v.y := by
      rcases lt_or_eq_of_le hsq with h | h
      · exact h
      · exfalso
        apply hxy
        constructor
        · have hx2 : v.x * v.x = 0 := by nlinarith [mul_self_nonneg v.x, mul_self_nonneg v.y]
          exact mul_self_eq_zero.mp hx2
        · have hy2 : v.y * v.y = 0 := by nlinarith [mul_self_nonneg v.x, mul_self_nonneg v.y]
          exact mul_self_eq_zero.mp hy2
    have hrpos : 0 < r := Real.sqrt_pos.mpr hpos
    have hrr : Real.sqrt (v.x ^ 2 + v.y ^ 2) = r := by
      rw [hr]
      congr 1
      ring
    rw [Vec3.eq_iff]
    refine ⟨?_, ?_, hlat_s⟩
    · show Real.cos (atan2 v.y v.x) * Real.cos (atan2 v.z r) = v.x
      rw [hlat_c, cos_atan2 hxy, hrr, div_mul_cancel₀ _ (ne_of_gt hrpos)]
    · show Real.sin (atan2 v.y v.x) * Real.cos (atan2 v.z r) = v.y
      rw [hlat_c, sin_atan2, hrr, div_mul_cancel₀ _ (ne_of_gt hrpos)]

theorem Unproject_coe (gm : GeneralizedMercator) (x y : ℝ) :
    Unproject gm ⟨x, ((y : ℝ) : EReal)⟩ = latLngFromPoint (unprojectPoint gm x y) := by
  simp only [Unproject, EReal.coe_ne_top, EReal.coe_ne_bot, if_false, EReal.toReal_coe]

/-- The point computed by `Unproject`, written over the frame basis. -/
theorem unprojectPoint_combo {gm : GeneralizedMercator}
    (hot : orthoTriple gm.i gm.j gm.k) (px py : ℝ) :
    unprojectPoint gm px py =
      comboV gm.i gm.j gm.k
        (Real.cos (ubeta gm py) * Real.cos px * Real.cos (upsi py) +
          Real.sin (ubeta gm py) * Real.sin (upsi py))
        (Real.sin px * Real.cos (upsi py))
        (Real.cos (ubeta gm py) * Real.sin (upsi py) -
          Real.sin (ubeta gm py) * Real.cos px * Real.cos (upsi py)) := by
  have h1 : unprojectPoint gm px py =
      ((rotate (rotate gm.i gm.j (ubeta gm py)) (rotate gm.k gm.j (ubeta gm py))
        px).mul (Real.cos (upsi py))).add
        ((rotate gm.k gm.j (ubeta gm py)).mul (Real.sin (upsi py))) := rfl
  rw [h1, rot_basis_i hot, rot_basis_k hot, rot_prime hot, comboV_smul, comboV_smul,
    comboV_add]
  simp only [comboV, Vec3.mul, Vec3.add, Vec3.eq_iff]
  refine ⟨by ring, by ring, by ring⟩

theorem upsi_mem (py : ℝ) : -(Real.pi / 2) < upsi py ∧ upsi py < Real.pi / 2 := by
  simp only [upsi]
  exact psi_mem

theorem cos_upsi_pos (py : ℝ) : 0 < Real.cos (upsi py) :=
  Real.cos_pos_of_mem_Ioo ⟨(upsi_mem py).1, (upsi_mem py).2⟩

theorem sin_ubeta {gm : GeneralizedMercator} (h0 : 0 ≤ gm.t.toReal⁻¹)
    (h1 : gm.t.toReal⁻¹ < 1) (py : ℝ) :
    Real.sin (ubeta gm py) = Real.sin (upsi py) * gm.t.toReal⁻¹ := by
  have hs1 := Real.neg_one_le_sin (upsi py)
  have hs2 := Real.sin_le_one (upsi py)
  rw [ubeta]
  exact Real.sin_arcsin (by nlinarith) (by nlinarith)

theorem cos_ubeta_pos {gm : GeneralizedMercator} (h0 : 0 ≤ gm.t.toReal⁻¹)
    (h1 : gm.t.toReal⁻¹ < 1) (py : ℝ) :
    0 < Real.cos (ubeta gm py) := by
  rw [ubeta, Real.cos_arcsin]
  apply Real.sqrt_pos.mpr
  have hs1 := Real.neg_one_le_sin (upsi py)
  have hs2 := Real.sin_le_one (upsi py)
  have hsq : Real.sin (upsi py) ^ 2 ≤ 1 := Real.sin_sq_le_one _
  nlinarith [mul_nonneg h0 h0, sq_nonneg (Real.sin (upsi py))]

/-! ### Angle and sign recovery through atan2 and copysign -/

theorem sin_abs_of_mem {θ : ℝ} (h1 : -Real.pi < θ) (h2 : θ ≤ Real.pi) :
    Real.sin |θ| = |Real.sin θ| := by
  rcases abs_cases θ with ⟨he, h0⟩ | ⟨he, h0⟩
  · rw [he, abs_of_nonneg (Real.sin_nonneg_of_nonneg_of_le_pi h0 h2)]
  · rw [he, Real.sin_neg,
      abs_of_nonpos (le_of_lt (Real.sin_neg_of_neg_of_neg_pi_lt h0 h1))]

theorem atan2_abs_angle {θ r : ℝ} (h1 : -Real.pi < θ) (h2 : θ ≤ Real.pi)
    (hr : 0 < r) : atan2 (r * |Real.sin θ|) (r * Real.cos θ) = |θ| := by
  rw [← sin_abs_of_mem h1 h2, ← Real.cos_abs θ]
  refine atan2_smul_cos_sin ?_ ?_ hr
  · exact lt_of_lt_of_le (neg_lt_zero.mpr Real.pi_pos) (abs_nonneg θ)
  · exact abs_le.mpr ⟨le_of_lt h1, h2⟩

theorem copysign_abs_sin {θ M : ℝ} (hM : 0 < M) (h1 : -Real.pi < θ)
    (h2 : θ ≤ Real.pi) : copysign |θ| (Real.sin θ * M) = θ := by
  by_cases hs : Real.sin θ * M < 0
  · have hsin : Real.sin θ < 0 := by
      by_contra hc
      push_neg at hc
      exact absurd hs (not_lt.mpr (mul_nonneg hc (le_of_lt hM)))
    have hθ : θ < 0 := by
      by_contra hc
      push_neg at hc
      exact absurd hsin (not_lt.mpr (Real.sin_nonneg_of_nonneg_of_le_pi hc h2))
    rw [copysign_of_neg _ hs, abs_abs, abs_of_neg hθ, neg_neg]
  · have hsin : 0 ≤ Real.sin θ := by
      by_contra hc
      push_neg at hc
      exact hs (mul_neg_of_neg_of_pos hc hM)
    have hθ : 0 ≤ θ := by
      by_contra hc
      push_neg at hc
      exact absurd (Real.sin_neg_of_neg_of_neg_pi_lt hc h1) (not_lt.mpr hsin)
    rw [copysign_of_nonneg _ (not_lt.mp hs), abs_abs, abs_of_nonneg hθ]

/-! ### Dot products against the basis and structured cross products -/

theorem comboV_dot_i {i j k : Vec3} (h : orthoTriple i j k) (a b c : ℝ) :
    (comboV i j k a b c).dot i = a := by
  obtain ⟨hii, hjj, hkk, hij, hik, hkj, -, -, -⟩ := h
  simp only [comboV, Vec3.mul, Vec3.add, Vec3.dot] at hii hjj hkk hij hik hkj ⊢
  linear_combination a * hii + b * hij + c * hik

theorem comboV_dot_j {i j k : Vec3} (h : orthoTriple i j k) (a b c : ℝ) :
    (comboV i j k a b c).dot j = b := by
  obtain ⟨hii, hjj, hkk, hij, hik, hkj, -, -, -⟩ := h
  simp only [comboV, Vec3.mul, Vec3.add, Vec3.dot] at hii hjj hkk hij hik hkj ⊢
  linear_combination a * hij + b * hjj + c * hkj

theorem comboV_dot_k {i j k : Vec3} (h : orthoTriple i j k) (a b c : ℝ) :
    (comboV i j k a b c).dot k = c := by
  obtain ⟨hii, hjj, hkk, hij, hik, hkj, -, -, -⟩ := h
  simp only [comboV, Vec3.mul, Vec3.add, Vec3.dot] at hii hjj hkk hij hik hkj ⊢
  linear_combination a * hik + b * hkj + c * hkk

/-- The Project reference direction `(i − P/t) × j` over the basis. -/
theorem i_sub_smul_cross_j {i j k : Vec3} (h : orthoTriple i j k) (a b c m : ℝ) :
    (i.sub ((comboV i j k a b c).mul m)).cross j =
      comboV i j k (m * c) 0 (1 - m * a) := by
  have h1 : i.sub ((comboV i j k a b c).mul m) =
      comboV i j k (1 - a * m) (-(b * m)) (-(c * m)) := by
    simp only [comboV, Vec3.mul, Vec3.add, Vec3.sub, Vec3.eq_iff]
    refine ⟨by ring, by ring, by ring⟩
  have h2 : (comboV i j k (1 - a * m) (-(b * m)) (-(c * m))).cross
      (comboV i j k 0 1 0) = comboV i j k (m * c) 0 (1 - m * a) := by
    rw [comboV_cross h]
    simp only [comboV, Vec3.mul, Vec3.add, Vec3.eq_iff]
    refine ⟨by ring, by ring, by ring⟩
  rw [comboV_j] at h2
  rw [h1, h2]

theorem comboV_cross_basis_k {i j k : Vec3} (h : orthoTriple i j k) (a b c : ℝ) :
    (comboV i j k a b c).cross k = comboV i j k b (-a) 0 := by
  have h2 : (comboV i j k a b c).cross (comboV i j k 0 0 1) =
      comboV i j k b (-a) 0 := by
    rw [comboV_cross h]
    simp only [comboV, Vec3.mul, Vec3.add, Vec3.eq_iff]
    refine ⟨by ring, by ring, by ring⟩
  rw [comboV_k] at h2
  exact h2

theorem goodGM_pos_combo {gm : GeneralizedMercator} (h : goodGM gm) :
    gm.pos = comboV gm.i gm.j gm.k gm.t.toReal⁻¹ 0
      (Real.sqrt (1 - gm.t.toReal⁻¹ ^ 2)) := by
  obtain ⟨-, -, -, -, -, -, hpos, -⟩ := h
  rw [hpos]
  simp only [comboV, Vec3.mul, Vec3.add, Vec3.eq_iff]
  refine ⟨by ring, by ring, by ring⟩

theorem goodGM_neg_combo {gm : GeneralizedMercator} (h : goodGM gm) :
    gm.neg = comboV gm.i gm.j gm.k gm.t.toReal⁻¹ 0
      (-Real.sqrt (1 - gm.t.toReal⁻¹ ^ 2)) := by
  obtain ⟨-, -, -, -, -, -, -, hneg⟩ := h
  rw [hneg]
  simp only [comboV, Vec3.mul, Vec3.add, Vec3.sub, Vec3.eq_iff]
  refine ⟨by ring, by ring, by ring⟩

theorem comboV_congr (i j k : Vec3) {a b c d e f : ℝ}
    (h1 : a = d) (h2 : b = e) (h3 : c = f) :
    comboV i j k a b c = comboV i j k d e f := by
  rw [h1, h2, h3]

set_option maxHeartbeats 2000000 in
/-- Composing `Project` after `Unproject` is the identity on finite planar
points with `x ∈ (−π, π]`, on any frame with exact basis data, as long as
the unprojected point does not fall within the pole tolerance. -/
theorem project_unproject_eq {gm : GeneralizedMercator} (hg : goodGM gm)
    {x y : ℝ} (hx1 : -Real.pi < x) (hx2 : x ≤ Real.pi)
    (hPnear : ¬ approxEqual (unprojectPoint gm x y) gm.pos)
    (hNnear : ¬ approxEqual (unprojectPoint gm x y) gm.neg) :
    Project gm (Unproject gm ⟨x, ((y : ℝ) : EReal)⟩) = ⟨x, ((y : ℝ) : EReal)⟩ := by
  have hot := goodGM_orthoTriple hg
  obtain ⟨hii, hkk, hik, hjdef, hinvt0, hinvt1, hposdef, hnegdef⟩ := hg
  have hπ := Real.pi_pos
  have hψ1 := (upsi_mem y).1
  have hψ2 := (upsi_mem y).2
  have hψπ1 : -Real.pi < upsi y := by linarith
  have hψπ2 : upsi y ≤ Real.pi := by linarith
  have hcψ := cos_upsi_pos y
  have hsβ := sin_ubeta hinvt0 hinvt1 y
  have hcβ := cos_ubeta_pos hinvt0 hinvt1 y
  have pyβ := Real.sin_sq_add_cos_sq (ubeta gm y)
  have pyψ := Real.sin_sq_add_cos_sq (upsi y)
  have pyx := Real.sin_sq_add_cos_sq x
  have hβub : ubeta gm y ≤ Real.pi / 2 := by
    rw [ubeta]
    exact Real.arcsin_le_pi_div_two _
  have hβlb : -(Real.pi / 2) ≤ ubeta gm y := by
    rw [ubeta]
    exact Real.neg_pi_div_two_le_arcsin _
  have hβ1 : -Real.pi < ubeta gm y := by linarith
  have hβ2 : ubeta gm y ≤ Real.pi := by linarith
  have hU := unprojectPoint_combo hot x y
  have hUnit : (unprojectPoint gm x y).dot (unprojectPoint gm x y) = 1 := by
    rw [hU, comboV_dot hot]
    linear_combination (Real.cos x ^ 2 * Real.cos (upsi y) ^ 2
      + Real.sin (upsi y) ^ 2) * pyβ + Real.cos (upsi y) ^ 2 * pyx + pyψ
  -- the positive factor M relating the measured angles to β and ψ
  have hsβ2 : Real.sin (ubeta gm y) ^ 2
      = Real.sin (upsi y) ^ 2 * gm.t.toReal⁻¹ ^ 2 := by
    rw [hsβ]
    ring
  have hinvtsq : gm.t.toReal⁻¹ ^ 2 < 1 := by nlinarith
  have hsq1 : (gm.t.toReal⁻¹ * Real.cos (upsi y) * Real.cos x) ^ 2
      < Real.cos (ubeta gm y) ^ 2 := by
    have hcβ2 : Real.cos (ubeta gm y) ^ 2
        = 1 - Real.sin (upsi y) ^ 2 * gm.t.toReal⁻¹ ^ 2 := by
      linear_combination pyβ - hsβ2
    rw [hcβ2]
    nlinarith [Real.cos_sq_le_one x, sq_nonneg (gm.t.toReal⁻¹ * Real.cos (upsi y)),
      pyψ, hinvtsq, sq_nonneg gm.t.toReal⁻¹,
      mul_nonneg (sq_nonneg (gm.t.toReal⁻¹ * Real.cos (upsi y)))
        (sub_nonneg.mpr (Real.cos_sq_le_one x))]
  have hM : 0 < Real.cos (ubeta gm y)
      - gm.t.toReal⁻¹ * Real.cos (upsi y) * Real.cos x := by
    have := lt_of_pow_lt_pow_left₀ 2 (le_of_lt hcβ) hsq1
    linarith
  -- scalar identities recovering β from the measured direction
  have hc_eq : Real.cos (ubeta gm y) * Real.sin (upsi y)
      - Real.sin (ubeta gm y) * Real.cos x * Real.cos (upsi y)
      = Real.sin (upsi y) * (Real.cos (ubeta gm y)
        - gm.t.toReal⁻¹ * Real.cos (upsi y) * Real.cos x) := by
    linear_combination (-(Real.cos x * Real.cos (upsi y))) * hsβ
  have h1a : 1 - gm.t.toReal⁻¹ * (Real.cos (ubeta gm y) * Real.cos x
      * Real.cos (upsi y) + Real.sin (ubeta gm y) * Real.sin (upsi y))
      = Real.cos (ubeta gm y) * (Real.cos (ubeta gm y)
        - gm.t.toReal⁻¹ * Real.cos (upsi y) * Real.cos x) := by
    linear_combination Real.sin (ubeta gm y) * hsβ - pyβ
  have hic : gm.t.toReal⁻¹ * (Real.cos (ubeta gm y) * Real.sin (upsi y)
      - Real.sin (ubeta gm y) * Real.cos x * Real.cos (upsi y))
      = Real.sin (ubeta gm y) * (Real.cos (ubeta gm y)
        - gm.t.toReal⁻¹ * Real.cos (upsi y) * Real.cos x) := by
    linear_combination (-Real.cos (ubeta gm y)) * hsβ
  have hdk : (unprojectPoint gm x y).dot gm.k = Real.sin (upsi y)
      * (Real.cos (ubeta gm y) - gm.t.toReal⁻¹ * Real.cos (upsi y) * Real.cos x) := by
    rw [hU, comboV_dot_k hot]
    exact hc_eq
  -- the measured tilt angle is |β|
  have hangleβ : Vec3.angle (comboV gm.i gm.j gm.k
      (gm.t.toReal⁻¹ * (Real.cos (ubeta gm y) * Real.sin (upsi y)
        - Real.sin (ubeta gm y) * Real.cos x * Real.cos (upsi y))) 0
      (1 - gm.t.toReal⁻¹ * (Real.cos (ubeta gm y) * Real.cos x
        * Real.cos (upsi y) + Real.sin (ubeta gm y) * Real.sin (upsi y)))) gm.k
      = |ubeta gm y| := by
    rw [Vec3.angle, comboV_cross_basis_k hot, comboV_dot_k hot, comboV_norm hot]
    rw [show (0:ℝ)^2 + (-(gm.t.toReal⁻¹ * (Real.cos (ubeta gm y) * Real.sin (upsi y)
        - Real.sin (ubeta gm y) * Real.cos x * Real.cos (upsi y))))^2 + 0^2
        = ((Real.cos (ubeta gm y) - gm.t.toReal⁻¹ * Real.cos (upsi y) * Real.cos x)
          * |Real.sin (ubeta gm y)|)^2 from by
      rw [mul_pow, sq_abs]
      linear_combination (gm.t.toReal⁻¹ * (Real.cos (ubeta gm y) * Real.sin (upsi y)
        - Real.sin (ubeta gm y) * Real.cos x * Real.cos (upsi y))
        + Real.sin (ubeta gm y) * (Real.cos (ubeta gm y)
          - gm.t.toReal⁻¹ * Real.cos (upsi y) * Real.cos x)) * hic]
    rw [Real.sqrt_sq (mul_nonneg (le_of_lt hM) (abs_nonneg _))]
    rw [show 1 - gm.t.toReal⁻¹ * (Real.cos (ubeta gm y) * Real.cos x
        * Real.cos (upsi y) + Real.sin (ubeta gm y) * Real.sin (upsi y))
        = (Real.cos (ubeta gm y) - gm.t.toReal⁻¹ * Real.cos (upsi y) * Real.cos x)
          * Real.cos (ubeta gm y) from by linear_combination h1a]
    exact atan2_abs_angle hβ1 hβ2 hM
  -- the branch value of beta computed by Project is exactly β
  have hbeta : copysign (Vec3.angle ((gm.i.sub ((unprojectPoint gm x y).mul
      gm.t.toReal⁻¹)).cross gm.j) gm.k) ((unprojectPoint gm x y).dot gm.k)
      = ubeta gm y := by
    have hV : (gm.i.sub ((unprojectPoint gm x y).mul gm.t.toReal⁻¹)).cross gm.j
        = comboV gm.i gm.j gm.k
          (gm.t.toReal⁻¹ * (Real.cos (ubeta gm y) * Real.sin (upsi y)
            - Real.sin (ubeta gm y) * Real.cos x * Real.cos (upsi y))) 0
          (1 - gm.t.toReal⁻¹ * (Real.cos (ubeta gm y) * Real.cos x
            * Real.cos (upsi y) + Real.sin (ubeta gm y) * Real.sin (upsi y))) := by
      rw [hU]
      exact i_sub_smul_cross_j hot _ _ _ _
    rw [hV, hangleβ, hdk]
    rcases lt_trichotomy (Real.sin (upsi y)) 0 with hs | hs | hs
    · have hBnp : ubeta gm y ≤ 0 := by
        rw [ubeta]
        refine Real.arcsin_nonpos.mpr ?_
        nlinarith [mul_nonneg (neg_nonneg.mpr (le_of_lt hs)) hinvt0]
      rw [copysign_of_neg _ (mul_neg_of_neg_of_pos hs hM), abs_abs,
        abs_of_nonpos hBnp, neg_neg]
    · have hB0 : ubeta gm y = 0 := by
        rw [ubeta, hs, zero_mul, Real.arcsin_zero]
      rw [hB0, hs, zero_mul, abs_zero, copysign_of_nonneg _ (le_refl (0:ℝ)),
        abs_zero]
    · have hBnn : 0 ≤ ubeta gm y := by
        rw [ubeta]
        exact Real.arcsin_nonneg.mpr (mul_nonneg (le_of_lt hs) hinvt0)
      rw [copysign_of_nonneg _ (le_of_lt (mul_pos hs hM)), abs_abs,
        abs_of_nonneg hBnn]
  -- the height of the point above the tilted equator is sin ψ
  have hPk : (unprojectPoint gm x y).dot (comboV gm.i gm.j gm.k
      (Real.sin (ubeta gm y)) 0 (Real.cos (ubeta gm y))) = Real.sin (upsi y) := by
    rw [hU, comboV_dot hot]
    linear_combination Real.sin (upsi y) * pyβ
  have hsub : (unprojectPoint gm x y).sub (comboV gm.i gm.j gm.k
      (Real.sin (ubeta gm y) * Real.sin (upsi y)) (0 * Real.sin (upsi y))
      (Real.cos (ubeta gm y) * Real.sin (upsi y)))
      = comboV gm.i gm.j gm.k
        (Real.cos (ubeta gm y) * Real.cos x * Real.cos (upsi y))
        (Real.sin x * Real.cos (upsi y))
        (-(Real.sin (ubeta gm y) * Real.cos x * Real.cos (upsi y))) := by
    rw [hU, comboV_sub]
    exact comboV_congr _ _ _ (by ring) (by ring) (by ring)
  -- the horizontal angle is |x|
  have hanglex : Vec3.angle
      (comboV gm.i gm.j gm.k (Real.cos (ubeta gm y)) 0 (-Real.sin (ubeta gm y)))
      (comboV gm.i gm.j gm.k
        (Real.cos (ubeta gm y) * Real.cos x * Real.cos (upsi y))
        (Real.sin x * Real.cos (upsi y))
        (-(Real.sin (ubeta gm y) * Real.cos x * Real.cos (upsi y)))) = |x| := by
    have hcr : (comboV gm.i gm.j gm.k (Real.cos (ubeta gm y)) 0
        (-Real.sin (ubeta gm y))).cross (comboV gm.i gm.j gm.k
          (Real.cos (ubeta gm y) * Real.cos x * Real.cos (upsi y))
          (Real.sin x * Real.cos (upsi y))
          (-(Real.sin (ubeta gm y) * Real.cos x * Real.cos (upsi y))))
        = comboV gm.i gm.j gm.k
          (Real.sin (ubeta gm y) * (Real.sin x * Real.cos (upsi y))) 0
          (Real.cos (ubeta gm y) * (Real.sin x * Real.cos (upsi y))) := by
      rw [comboV_cross hot]
      exact comboV_congr _ _ _ (by ring) (by ring) (by ring)
    have hdt : (comboV gm.i gm.j gm.k (Real.cos (ubeta gm y)) 0
        (-Real.sin (ubeta gm y))).dot (comboV gm.i gm.j gm.k
          (Real.cos (ubeta gm y) * Real.cos x * Real.cos (upsi y))
          (Real.sin x * Real.cos (upsi y))
          (-(Real.sin (ubeta gm y) * Real.cos x * Real.cos (upsi y))))
        = Real.cos (upsi y) * Real.cos x := by
      rw [comboV_dot hot]
      linear_combination (Real.cos x * Real.cos (upsi y)) * pyβ
    rw [Vec3.angle, hcr, hdt, comboV_norm hot]
    rw [show (Real.sin (ubeta gm y) * (Real.sin x * Real.cos (upsi y)))^2 + 0^2
        + (Real.cos (ubeta gm y) * (Real.sin x * Real.cos (upsi y)))^2
        = (Real.cos (upsi y) * |Real.sin x|)^2 from by
      rw [mul_pow (Real.cos (upsi y)) (|Real.sin x|) 2, sq_abs]
      linear_combination (Real.sin x^2 * Real.cos (upsi y)^2) * pyβ]
    rw [Real.sqrt_sq (mul_nonneg (le_of_lt hcψ) (abs_nonneg _))]
    exact atan2_abs_angle hx1 hx2 hcψ
  -- the vertical angle is |ψ|
  have hangleψ : Vec3.angle (unprojectPoint gm x y)
      (comboV gm.i gm.j gm.k
        (Real.cos (ubeta gm y) * Real.cos x * Real.cos (upsi y))
        (Real.sin x * Real.cos (upsi y))
        (-(Real.sin (ubeta gm y) * Real.cos x * Real.cos (upsi y)))) = |upsi y| := by
    have hcrψ : (unprojectPoint gm x y).cross (comboV gm.i gm.j gm.k
        (Real.cos (ubeta gm y) * Real.cos x * Real.cos (upsi y))
        (Real.sin x * Real.cos (upsi y))
        (-(Real.sin (ubeta gm y) * Real.cos x * Real.cos (upsi y))))
        = comboV gm.i gm.j gm.k
          (-(Real.cos (ubeta gm y) * Real.sin x * Real.sin (upsi y)
            * Real.cos (upsi y)))
          (Real.cos x * Real.sin (upsi y) * Real.cos (upsi y))
          (Real.sin (ubeta gm y) * Real.sin x * Real.sin (upsi y)
            * Real.cos (upsi y)) := by
      rw [hU, comboV_cross hot]
      refine comboV_congr _ _ _ (by ring) ?_ (by ring)
      linear_combination (Real.cos x * Real.cos (upsi y) * Real.sin (upsi y)) * pyβ
    have hdtψ : (unprojectPoint gm x y).dot (comboV gm.i gm.j gm.k
        (Real.cos (ubeta gm y) * Real.cos x * Real.cos (upsi y))
        (Real.sin x * Real.cos (upsi y))
        (-(Real.sin (ubeta gm y) * Real.cos x * Real.cos (upsi y))))
        = Real.cos (upsi y) * Real.cos (upsi y) := by
      rw [hU, comboV_dot hot]
      linear_combination (Real.cos x^2 * Real.cos (upsi y)^2) * pyβ
        + Real.cos (upsi y)^2 * pyx
    rw [Vec3.angle, hcrψ, hdtψ, comboV_norm hot]
    rw [show (-(Real.cos (ubeta gm y) * Real.sin x * Real.sin (upsi y)
        * Real.cos (upsi y)))^2
        + (Real.cos x * Real.sin (upsi y) * Real.cos (upsi y))^2
        + (Real.sin (ubeta gm y) * Real.sin x * Real.sin (upsi y)
          * Real.cos (upsi y))^2
        = (Real.cos (upsi y) * |Real.sin (upsi y)|)^2 from by
      rw [mul_pow (Real.cos (upsi y)) (|Real.sin (upsi y)|) 2, sq_abs]
      linear_combination (Real.sin x^2 * Real.sin (upsi y)^2
        * Real.cos (upsi y)^2) * pyβ
        + (Real.sin (upsi y)^2 * Real.cos (upsi y)^2) * pyx]
    rw [Real.sqrt_sq (mul_nonneg (le_of_lt hcψ) (abs_nonneg _))]
    exact atan2_abs_angle hψπ1 hψπ2 hcψ
  have hψout : copysign |upsi y| ((unprojectPoint gm x y).dot gm.k) = upsi y := by
    rw [hdk]
    exact copysign_abs_sin hM hψπ1 hψπ2
  have hxout : copysign |x| (Real.sin x * Real.cos (upsi y)) = x :=
    copysign_abs_sin hcψ hx1 hx2
  have hyy : Real.log (Real.tan (Real.pi / 4 + upsi y / 2)) = y := by
    simp only [upsi]
    exact mercator_log_round y
  -- assemble
  rw [Unproject_coe]
  have hPU : pointFromLatLng (latLngFromPoint (unprojectPoint gm x y))
      = unprojectPoint gm x y := pfll_llfp hUnit
  rw [Project]
  simp only [hPU, if_neg hPnear, if_neg hNnear]
  rw [hbeta, rot_basis_i hot, rot_basis_k hot, hPk, comboV_smul, hsub,
    hanglex, comboV_dot_j hot, hangleψ, hψout, hxout, hyy]

set_option maxHeartbeats 2000000 in
/-- Composing `Unproject` after `Project` recovers the spherical point, on
any frame with exact basis data, for inputs away from the pole tolerance. -/
theorem unproject_project_eq {gm : GeneralizedMercator} (hg : goodGM gm)
    {ll : LatLng}
    (hPnear : ¬ approxEqual (pointFromLatLng ll) gm.pos)
    (hNnear : ¬ approxEqual (pointFromLatLng ll) gm.neg) :
    pointFromLatLng (Unproject gm (Project gm ll)) = pointFromLatLng ll := by
  have hot := goodGM_orthoTriple hg
  have hposC := goodGM_pos_combo hg
  have hnegC := goodGM_neg_combo hg
  obtain ⟨hii, hkk, hik, hjdef, hinvt0, hinvt1, hposdef, hnegdef⟩ := hg
  have hπ := Real.pi_pos
  have hunit := pfll_unit ll
  set a := gm.i.dot (pointFromLatLng ll) with hadef
  set b := gm.j.dot (pointFromLatLng ll) with hbdef
  set c := gm.k.dot (pointFromLatLng ll) with hcdef
  have hPcombo : pointFromLatLng ll = comboV gm.i gm.j gm.k a b c := by
    rw [hadef, hbdef, hcdef]
    exact comboV_expand hot _
  have habc : a * a + b * b + c * c = 1 := by
    have h1 := hunit
    rw [hPcombo, comboV_dot hot] at h1
    exact h1
  have ha1 : a ≤ 1 := by
    linarith [sq_nonneg b, sq_nonneg c, sq_nonneg (1 - a), habc]
  have h1a : 0 < 1 - gm.t.toReal⁻¹ * a := by
    linarith [mul_nonneg hinvt0 (sub_nonneg.mpr ha1)]
  set R := Real.sqrt ((1 - gm.t.toReal⁻¹ * a)^2 + (gm.t.toReal⁻¹ * c)^2) with hRdef
  have hR2 : R^2 = (1 - gm.t.toReal⁻¹ * a)^2 + (gm.t.toReal⁻¹ * c)^2 := by
    rw [hRdef]
    exact Real.sq_sqrt (by positivity)
  have hRpos : 0 < R := by
    rw [hRdef]
    apply Real.sqrt_pos.mpr
    linarith [pow_pos h1a 2, sq_nonneg (gm.t.toReal⁻¹ * c)]
  have hRne : R ≠ 0 := ne_of_gt hRpos
  -- the tilt angle
  set bh := Real.arcsin (gm.t.toReal⁻¹ * c / R) with hbhdef
  have hqle : (gm.t.toReal⁻¹ * c / R)^2 ≤ 1 := by
    rw [div_pow, div_le_one (pow_pos hRpos 2)]
    linarith [sq_nonneg (1 - gm.t.toReal⁻¹ * a), hR2]
  have hq1 : -1 ≤ gm.t.toReal⁻¹ * c / R ∧ gm.t.toReal⁻¹ * c / R ≤ 1 :=
    abs_le.mp ((sq_le_one_iff_abs_le_one _).mp hqle)
  have hsbh : Real.sin bh = gm.t.toReal⁻¹ * c / R := by
    rw [hbhdef]
    exact Real.sin_arcsin hq1.1 hq1.2
  have hcbh : Real.cos bh = (1 - gm.t.toReal⁻¹ * a) / R := by
    rw [hbhdef, Real.cos_arcsin]
    rw [show 1 - (gm.t.toReal⁻¹ * c / R)^2 = ((1 - gm.t.toReal⁻¹ * a) / R)^2 from by
      rw [div_pow, div_pow, one_sub_div (ne_of_gt (pow_pos hRpos 2)),
        div_eq_div_iff (ne_of_gt (pow_pos hRpos 2)) (ne_of_gt (pow_pos hRpos 2))]
      linear_combination R^2 * hR2]
    exact Real.sqrt_sq (div_nonneg (le_of_lt h1a) (le_of_lt hRpos))
  have hcbh_pos : 0 < Real.cos bh := by
    rw [hcbh]
    exact div_pos h1a hRpos
  have pybh := Real.sin_sq_add_cos_sq bh
  have hbub : bh ≤ Real.pi / 2 := by
    rw [hbhdef]
    exact Real.arcsin_le_pi_div_two _
  have hblb : -(Real.pi / 2) ≤ bh := by
    rw [hbhdef]
    exact Real.neg_pi_div_two_le_arcsin _
  have hb1 : -Real.pi < bh := by linarith
  have hb2 : bh ≤ Real.pi := by linarith
  -- strict positivity of R² − c² away from the poles
  have hRc : R^2 - c^2 = (a - gm.t.toReal⁻¹)^2 + (1 - gm.t.toReal⁻¹^2) * b^2 := by
    rw [hR2]
    linear_combination (gm.t.toReal⁻¹^2 - 1) * habc
  have hPnepos : pointFromLatLng ll ≠ gm.pos := by
    intro he
    exact hPnear (he ▸ approxEqual_refl _)
  have hPneneg : pointFromLatLng ll ≠ gm.neg := by
    intro he
    exact hNnear (he ▸ approxEqual_refl _)
  have hinvt2 : gm.t.toReal⁻¹^2 < 1 := by
    linarith [mul_nonneg hinvt0 (sub_nonneg.mpr (le_of_lt hinvt1))]
  have hpos2 : 0 < 1 - gm.t.toReal⁻¹^2 := by linarith [hinvt2]
  have hs2 : Real.sqrt (1 - gm.t.toReal⁻¹^2)^2 = 1 - gm.t.toReal⁻¹^2 :=
    Real.sq_sqrt (le_of_lt hpos2)
  have hstrict : 0 < R^2 - c^2 := by
    rcases lt_or_eq_of_le (by
        linarith [sq_nonneg (a - gm.t.toReal⁻¹),
          mul_nonneg (le_of_lt hpos2) (sq_nonneg b), hRc] :
        (0:ℝ) ≤ R^2 - c^2) with h | h
    · exact h
    · exfalso
      have hb0 : b = 0 := by
        by_contra hb'
        have hbsq : 0 < b^2 := by positivity
        linarith [sq_nonneg (a - gm.t.toReal⁻¹), mul_pos hpos2 hbsq, hRc]
      have ha0 : a = gm.t.toReal⁻¹ := by
        have h2' : (a - gm.t.toReal⁻¹)^2 ≤ 0 := by
          linarith [mul_nonneg (le_of_lt hpos2) (sq_nonneg b), hRc]
        have h3' := le_antisymm h2' (sq_nonneg _)
        exact sub_eq_zero.mp ((pow_eq_zero_iff (by norm_num : (2:ℕ) ≠ 0)).mp h3')
      have hcsq : c^2 = 1 - gm.t.toReal⁻¹^2 := by
        rw [ha0, hb0] at habc
        linear_combination habc
      have hfact : (c - Real.sqrt (1 - gm.t.toReal⁻¹^2))
          * (c + Real.sqrt (1 - gm.t.toReal⁻¹^2)) = 0 := by
        linear_combination hcsq - hs2
      rcases mul_eq_zero.mp hfact with hcv | hcv
      · apply hPnepos
        rw [hPcombo, hposC]
        exact comboV_congr _ _ _ ha0 hb0 (sub_eq_zero.mp hcv)
      · apply hPneneg
        rw [hPcombo, hnegC]
        exact comboV_congr _ _ _ ha0 hb0 (add_eq_zero_iff_eq_neg.mp hcv)
  -- the vertical angle
  set ph := Real.arcsin (c / R) with hphdef
  have hql2 : (c / R)^2 < 1 := by
    rw [div_pow, div_lt_one (pow_pos hRpos 2)]
    linarith [hstrict]
  have hq2 : -1 < c / R ∧ c / R < 1 :=
    abs_lt.mp ((sq_lt_one_iff_abs_lt_one _).mp hql2)
  have hsph : Real.sin ph = c / R := by
    rw [hphdef]
    exact Real.sin_arcsin (le_of_lt hq2.1) (le_of_lt hq2.2)
  have hph1 : -(Real.pi / 2) < ph := by
    rw [hphdef]
    exact Real.neg_pi_div_two_lt_arcsin.mpr hq2.1
  have hph2 : ph < Real.pi / 2 := by
    rw [hphdef]
    exact Real.arcsin_lt_pi_div_two.mpr hq2.2
  have hcph_pos : 0 < Real.cos ph := Real.cos_pos_of_mem_Ioo ⟨hph1, hph2⟩
  have hcphne : Real.cos ph ≠ 0 := ne_of_gt hcph_pos
  have pyph := Real.sin_sq_add_cos_sq ph
  have hp1 : -Real.pi < ph := by linarith
  have hp2 : ph ≤ Real.pi := by linarith
  -- the horizontal angle
  set w := a * Real.cos bh - c * Real.sin bh with hwdef
  have hkey1 : a * Real.sin bh + c * Real.cos bh = Real.sin ph := by
    rw [hsbh, hcbh, hsph, ← mul_div_assoc, ← mul_div_assoc, div_add_div_same,
      div_eq_div_iff hRne hRne]
    ring
  have hwb : w^2 + b^2 = Real.cos ph^2 := by
    have h1 : w^2 + (a * Real.sin bh + c * Real.cos bh)^2 = a^2 + c^2 := by
      rw [hwdef]
      linear_combination (a^2 + c^2) * pybh
    rw [hkey1] at h1
    linear_combination h1 + habc - pyph
  have hcph2 : Real.sqrt (w^2 + b^2) = Real.cos ph := by
    rw [hwb]
    exact Real.sqrt_sq (le_of_lt hcph_pos)
  set xh := atan2 b w with hxhdef
  have hwb0 : ¬ (w = 0 ∧ b = 0) := by
    rintro ⟨h1, h2⟩
    rw [h1, h2] at hwb
    norm_num at hwb
    linarith [pow_pos hcph_pos 2, hwb]
  have hsxh : Real.sin xh = b / Real.cos ph := by
    rw [hxhdef, sin_atan2, hcph2]
  have hcxh : Real.cos xh = w / Real.cos ph := by
    rw [hxhdef, cos_atan2 hwb0, hcph2]
  have hxh1 : -Real.pi < xh := by
    rw [hxhdef]
    exact Complex.neg_pi_lt_arg _
  have hxh2 : xh ≤ Real.pi := by
    rw [hxhdef]
    exact atan2_le_pi b w
  -- the beta computed by Project is bh
  have hV : (gm.i.sub ((pointFromLatLng ll).mul gm.t.toReal⁻¹)).cross gm.j
      = comboV gm.i gm.j gm.k (gm.t.toReal⁻¹ * c) 0 (1 - gm.t.toReal⁻¹ * a) := by
    rw [hPcombo]
    exact i_sub_smul_cross_j hot a b c _
  have hangleb : Vec3.angle (comboV gm.i gm.j gm.k (gm.t.toReal⁻¹ * c) 0
      (1 - gm.t.toReal⁻¹ * a)) gm.k = |bh| := by
    rw [Vec3.angle, comboV_cross_basis_k hot, comboV_dot_k hot, comboV_norm hot]
    rw [show (0:ℝ)^2 + (-(gm.t.toReal⁻¹ * c))^2 + 0^2 = (R * |Real.sin bh|)^2 from by
      rw [mul_pow R (|Real.sin bh|) 2, sq_abs, hsbh, div_pow, ← mul_div_assoc,
        mul_div_cancel_left₀ _ (ne_of_gt (pow_pos hRpos 2))]
      ring]
    rw [Real.sqrt_sq (mul_nonneg (le_of_lt hRpos) (abs_nonneg _))]
    rw [show 1 - gm.t.toReal⁻¹ * a = R * Real.cos bh from by
      rw [hcbh, ← mul_div_assoc, mul_div_cancel_left₀ _ hRne]]
    exact atan2_abs_angle hb1 hb2 hRpos
  have hdk1 : (pointFromLatLng ll).dot gm.k = c := by
    rw [hPcombo, comboV_dot_k hot]
  have hbeta : copysign (Vec3.angle ((gm.i.sub ((pointFromLatLng ll).mul
      gm.t.toReal⁻¹)).cross gm.j) gm.k) ((pointFromLatLng ll).dot gm.k) = bh := by
    rw [hV, hangleb, hdk1]
    rcases lt_trichotomy c 0 with hs | hs | hs
    · have hBnp : bh ≤ 0 := by
        rw [hbhdef]
        refine Real.arcsin_nonpos.mpr ?_
        refine div_nonpos_iff.mpr (Or.inr ⟨?_, le_of_lt hRpos⟩)
        linarith [mul_nonneg hinvt0 (neg_nonneg.mpr (le_of_lt hs))]
      rw [copysign_of_neg _ hs, abs_abs, abs_of_nonpos hBnp, neg_neg]
    · have hB0 : bh = 0 := by
        rw [hbhdef, hs, mul_zero, zero_div, Real.arcsin_zero]
      rw [hB0, hs, abs_zero, copysign_of_nonneg _ (le_refl (0:ℝ)), abs_zero]
    · have hBnn : 0 ≤ bh := by
        rw [hbhdef]
        exact Real.arcsin_nonneg.mpr
          (div_nonneg (mul_nonneg hinvt0 (le_of_lt hs)) (le_of_lt hRpos))
      rw [copysign_of_nonneg _ (le_of_lt hs), abs_abs, abs_of_nonneg hBnn]
  -- the pieces of Project after the tilt
  have hPk2 : (pointFromLatLng ll).dot (comboV gm.i gm.j gm.k (Real.sin bh) 0
      (Real.cos bh)) = Real.sin ph := by
    rw [hPcombo, comboV_dot hot]
    linear_combination hkey1
  have hsub2 : (pointFromLatLng ll).sub (comboV gm.i gm.j gm.k
      (Real.sin bh * Real.sin ph) (0 * Real.sin ph) (Real.cos bh * Real.sin ph))
      = comboV gm.i gm.j gm.k (a - Real.sin bh * Real.sin ph) b
        (c - Real.cos bh * Real.sin ph) := by
    rw [hPcombo, comboV_sub]
    exact comboV_congr _ _ _ (by ring) (by ring) (by ring)
  have hdtx : (comboV gm.i gm.j gm.k (Real.cos bh) 0 (-Real.sin bh)).dot
      (comboV gm.i gm.j gm.k (a - Real.sin bh * Real.sin ph) b
        (c - Real.cos bh * Real.sin ph)) = Real.cos ph * Real.cos xh := by
    rw [comboV_dot hot, hcxh]
    rw [show Real.cos ph * (w / Real.cos ph) = w from by
      rw [← mul_div_assoc, mul_div_cancel_left₀ _ hcphne]]
    linear_combination -hwdef
  have hcrx : (comboV gm.i gm.j gm.k (Real.cos bh) 0 (-Real.sin bh)).cross
      (comboV gm.i gm.j gm.k (a - Real.sin bh * Real.sin ph) b
        (c - Real.cos bh * Real.sin ph))
      = comboV gm.i gm.j gm.k (Real.sin bh * b) 0 (Real.cos bh * b) := by
    rw [comboV_cross hot]
    refine comboV_congr _ _ _ (by ring) ?_ (by ring)
    linear_combination Real.sin ph * pybh - hkey1
  have hanglex2 : Vec3.angle (comboV gm.i gm.j gm.k (Real.cos bh) 0 (-Real.sin bh))
      (comboV gm.i gm.j gm.k (a - Real.sin bh * Real.sin ph) b
        (c - Real.cos bh * Real.sin ph)) = |xh| := by
    rw [Vec3.angle, hcrx, hdtx, comboV_norm hot]
    rw [show (Real.sin bh * b)^2 + 0^2 + (Real.cos bh * b)^2
        = (Real.cos ph * |Real.sin xh|)^2 from by
      rw [mul_pow (Real.cos ph) (|Real.sin xh|) 2, sq_abs, hsxh, div_pow,
        ← mul_div_assoc, mul_div_cancel_left₀ _ (ne_of_gt (pow_pos hcph_pos 2))]
      linear_combination b^2 * pybh]
    rw [Real.sqrt_sq (mul_nonneg (le_of_lt hcph_pos) (abs_nonneg _))]
    exact atan2_abs_angle hxh1 hxh2 hcph_pos
  have hdjx : (comboV gm.i gm.j gm.k (a - Real.sin bh * Real.sin ph) b
      (c - Real.cos bh * Real.sin ph)).dot gm.j = Real.sin xh * Real.cos ph := by
    rw [comboV_dot_j hot, hsxh]
    exact (div_mul_cancel₀ b hcphne).symm
  have hxout : copysign |xh| (Real.sin xh * Real.cos ph) = xh :=
    copysign_abs_sin hcph_pos hxh1 hxh2
  have hdtp : (pointFromLatLng ll).dot (comboV gm.i gm.j gm.k
      (a - Real.sin bh * Real.sin ph) b (c - Real.cos bh * Real.sin ph))
      = Real.cos ph * Real.cos ph := by
    rw [hPcombo, comboV_dot hot]
    linear_combination habc - Real.sin ph * hkey1 - pyph
  have hcrp : (pointFromLatLng ll).cross (comboV gm.i gm.j gm.k
      (a - Real.sin bh * Real.sin ph) b (c - Real.cos bh * Real.sin ph))
      = comboV gm.i gm.j gm.k (-(Real.cos bh * Real.sin ph * b))
        (Real.sin ph * w) (Real.sin bh * Real.sin ph * b) := by
    rw [hPcombo, comboV_cross hot]
    refine comboV_congr _ _ _ (by ring) ?_ (by ring)
    rw [hwdef]
    ring
  have hanglep : Vec3.angle (pointFromLatLng ll) (comboV gm.i gm.j gm.k
      (a - Real.sin bh * Real.sin ph) b (c - Real.cos bh * Real.sin ph)) = |ph| := by
    rw [Vec3.angle, hcrp, hdtp, comboV_norm hot]
    rw [show (-(Real.cos bh * Real.sin ph * b))^2 + (Real.sin ph * w)^2
        + (Real.sin bh * Real.sin ph * b)^2
        = (Real.cos ph * |Real.sin ph|)^2 from by
      rw [mul_pow (Real.cos ph) (|Real.sin ph|) 2, sq_abs]
      linear_combination (Real.sin ph^2 * b^2) * pybh + Real.sin ph^2 * hwb]
    rw [Real.sqrt_sq (mul_nonneg (le_of_lt hcph_pos) (abs_nonneg _))]
    exact atan2_abs_angle hp1 hp2 hcph_pos
  have hpout : copysign |ph| ((pointFromLatLng ll).dot gm.k) = ph := by
    rw [hdk1]
    rcases lt_trichotomy c 0 with hs | hs | hs
    · have hpnp : ph ≤ 0 := by
        rw [hphdef]
        exact Real.arcsin_nonpos.mpr (le_of_lt (div_neg_of_neg_of_pos hs hRpos))
      rw [copysign_of_neg _ hs, abs_abs, abs_of_nonpos hpnp, neg_neg]
    · have hp0 : ph = 0 := by
        rw [hphdef, hs, zero_div, Real.arcsin_zero]
      rw [hp0, hs, abs_zero, copysign_of_nonneg _ (le_refl (0:ℝ)), abs_zero]
    · have hpnn : 0 ≤ ph := by
        rw [hphdef]
        exact Real.arcsin_nonneg.mpr (div_nonneg (le_of_lt hs) (le_of_lt hRpos))
      rw [copysign_of_nonneg _ (le_of_lt hs), abs_abs, abs_of_nonneg hpnn]
  -- Project evaluates to (xh, log tan(π/4 + ph/2))
  have hProj : Project gm ll
      = ⟨xh, ((Real.log (Real.tan (Real.pi / 4 + ph / 2)) : ℝ) : EReal)⟩ := by
    rw [Project]
    simp only [if_neg hPnear, if_neg hNnear]
    rw [hbeta, rot_basis_i hot, rot_basis_k hot, hPk2, comboV_smul, hsub2,
      hanglex2, hdjx, hanglep, hpout, hxout]
  -- Unproject recovers the point
  have hups : upsi (Real.log (Real.tan (Real.pi / 4 + ph / 2))) = ph := by
    simp only [upsi]
    exact mercator_psi_round hph1 hph2
  have hube : ubeta gm (Real.log (Real.tan (Real.pi / 4 + ph / 2))) = bh := by
    rw [ubeta, hups, hsph, hbhdef]
    congr 1
    ring
  have hrecover : unprojectPoint gm xh (Real.log (Real.tan (Real.pi / 4 + ph / 2)))
      = pointFromLatLng ll := by
    rw [unprojectPoint_combo hot, hube, hups, hsxh, hcxh, hPcombo]
    refine comboV_congr _ _ _ ?_ ?_ ?_
    · rw [show Real.cos bh * (w / Real.cos ph) * Real.cos ph = Real.cos bh * w from by
        rw [mul_assoc, div_mul_cancel₀ w hcphne]]
      linear_combination Real.cos bh * hwdef - Real.sin bh * hkey1 + a * pybh
    · exact div_mul_cancel₀ b hcphne
    · rw [show Real.sin bh * (w / Real.cos ph) * Real.cos ph = Real.sin bh * w from by
        rw [mul_assoc, div_mul_cancel₀ w hcphne]]
      linear_combination c * pybh - Real.cos bh * hkey1 - Real.sin bh * hwdef
  rw [hProj, Unproject_coe, hrecover]
  exact pfll_llfp hunit

theorem mercFrame_orthoTriple :
    orthoTriple mercFrame.i mercFrame.j mercFrame.k := by
  simp only [orthoTriple, mercFrame, Vec3.dot, Vec3.cross, Vec3.eq_iff]
  norm_num

theorem ubeta_mercFrame (py : ℝ) : ubeta mercFrame py = 0 := by
  rw [ubeta, show mercFrame.t = (⊤ : EReal) from rfl, EReal.toReal_top,
    inv_zero, mul_zero, Real.arcsin_zero]

/-- C1 (amended): for every frame built by `New` whose snapped poles are
exactly unit vectors (and exactly antipodal when the antipodal branch is
taken), `Project` and `Unproject` are mutual inverses away from the poles:
a spherical point not within tolerance of either pole comes back to the
same point on the sphere, and a finite planar point `(x, y)` with
`x ∈ (−π, π]` whose unprojection stays outside the pole tolerance comes
back exactly.  (Without the last proviso the planar round trip fails: large
`y` unprojects into the pole tolerance; see the counterexample.) -/
theorem C1_round_trip_amended {pll nll ll : LatLng} {gm : GeneralizedMercator}
    {x y : ℝ}
    (hNew : New pll nll = some gm)
    (hupos : gm.pos.dot gm.pos = 1) (huneg : gm.neg.dot gm.neg = 1)
    (hexact : approxEqual gm.pos (gm.neg.mul (-1)) → gm.pos = gm.neg.mul (-1))
    (hllpos : ¬ approxEqual (pointFromLatLng ll) gm.pos)
    (hllneg : ¬ approxEqual (pointFromLatLng ll) gm.neg)
    (hx1 : -Real.pi < x) (hx2 : x ≤ Real.pi)
    (hxpos : ¬ approxEqual (unprojectPoint gm x y) gm.pos)
    (hxneg : ¬ approxEqual (unprojectPoint gm x y) gm.neg) :
    pointFromLatLng (Unproject gm (Project gm ll)) = pointFromLatLng ll ∧
    Project gm (Unproject gm ⟨x, ((y : ℝ) : EReal)⟩) = ⟨x, ((y : ℝ) : EReal)⟩ := by
  have hgood := (New_frame_structure hNew hupos huneg hexact).1
  exact ⟨unproject_project_eq hgood hllpos hllneg,
    project_unproject_eq hgood hx1 hx2 hxpos hxneg⟩

/-- Witness for C1 (amended): on the classical Mercator frame, the point at
latitude and longitude `0` and the planar point `(0, 0)` both round-trip. -/
theorem C1_round_trip_amended_witness :
    New ⟨Real.pi / 2, 0⟩ ⟨-(Real.pi / 2), 0⟩ = some mercFrame ∧
    mercFrame.pos.dot mercFrame.pos = 1 ∧
    mercFrame.neg.dot mercFrame.neg = 1 ∧
    (approxEqual mercFrame.pos (mercFrame.neg.mul (-1)) →
      mercFrame.pos = mercFrame.neg.mul (-1)) ∧
    ¬ approxEqual (pointFromLatLng ⟨0, 0⟩) mercFrame.pos ∧
    ¬ approxEqual (pointFromLatLng ⟨0, 0⟩) mercFrame.neg ∧
    (-Real.pi < (0:ℝ) ∧ (0:ℝ) ≤ Real.pi) ∧
    ¬ approxEqual (unprojectPoint mercFrame 0 0) mercFrame.pos ∧
    ¬ approxEqual (unprojectPoint mercFrame 0 0) mercFrame.neg ∧
    (pointFromLatLng (Unproject mercFrame (Project mercFrame ⟨0, 0⟩))
        = pointFromLatLng ⟨0, 0⟩ ∧
      Project mercFrame (Unproject mercFrame ⟨0, ((0 : ℝ) : EReal)⟩)
        = ⟨0, ((0 : ℝ) : EReal)⟩) := by
  have h1 : mercFrame.pos.dot mercFrame.pos = 1 := by
    simp [mercFrame, Vec3.dot]
  have h2 : mercFrame.neg.dot mercFrame.neg = 1 := by
    simp [mercFrame, Vec3.dot]
  have hex : approxEqual mercFrame.pos (mercFrame.neg.mul (-1)) →
      mercFrame.pos = mercFrame.neg.mul (-1) := by
    intro _
    simp [mercFrame, Vec3.mul, Vec3.eq_iff]
  have h3 : ¬ approxEqual (pointFromLatLng ⟨0, 0⟩) mercFrame.pos := by
    rw [pfll_origin]
    rintro ⟨c1, -, -⟩
    norm_num [mercFrame] at c1
  have h4 : ¬ approxEqual (pointFromLatLng ⟨0, 0⟩) mercFrame.neg := by
    rw [pfll_origin]
    rintro ⟨c1, -, -⟩
    norm_num [mercFrame] at c1
  have hπ1 : -Real.pi < (0:ℝ) := by linarith [Real.pi_pos]
  have hπ2 : (0:ℝ) ≤ Real.pi := le_of_lt Real.pi_pos
  have hupsi0 : upsi 0 = 0 := by
    simp only [upsi]
    rw [Real.exp_zero, Real.arctan_one]
    ring
  have hU0 : unprojectPoint mercFrame 0 0 = ⟨1, 0, 0⟩ := by
    rw [unprojectPoint_combo mercFrame_orthoTriple, ubeta_mercFrame, hupsi0]
    simp only [comboV, mercFrame, Vec3.mul, Vec3.add, Vec3.eq_iff,
      Real.cos_zero, Real.sin_zero]
    norm_num
  have h5 : ¬ approxEqual (unprojectPoint mercFrame 0 0) mercFrame.pos := by
    rw [hU0]
    rintro ⟨c1, -, -⟩
    norm_num [mercFrame] at c1
  have h6 : ¬ approxEqual (unprojectPoint mercFrame 0 0) mercFrame.neg := by
    rw [hU0]
    rintro ⟨c1, -, -⟩
    norm_num [mercFrame] at c1
  exact ⟨New_merc, h1, h2, hex, h3, h4, ⟨hπ1, hπ2⟩, h5, h6,
    C1_round_trip_amended New_merc h1 h2 hex h3 h4 hπ1 hπ2 h5 h6⟩

/-- C1 counterexample: on the classical Mercator frame the planar point
`(0, 50)` does not survive the round trip: its unprojection lands within
the `1e-15` pole tolerance, so projecting it back returns `(0, +∞)`. -/
theorem C1_round_trip_cex :
    Project mercFrame (Unproject mercFrame ⟨0, ((50 : ℝ) : EReal)⟩)
      ≠ ⟨0, ((50 : ℝ) : EReal)⟩ := by
  -- the unprojected point in closed form
  have hU50 : unprojectPoint mercFrame 0 50
      = ⟨Real.cos (upsi 50), 0, Real.sin (upsi 50)⟩ := by
    rw [unprojectPoint_combo mercFrame_orthoTriple, ubeta_mercFrame]
    simp only [comboV, mercFrame, Vec3.mul, Vec3.add, Vec3.eq_iff,
      Real.cos_zero, Real.sin_zero]
    norm_num
  -- numeric bounds: exp 50 is astronomically large
  have hE : (2e15 : ℝ) < Real.exp 50 := by
    have h1 : Real.exp 50 = Real.exp 1 ^ (50:ℕ) := by
      rw [← Real.exp_nat_mul]
      norm_num
    have h2 : ((2.7:ℝ)) ^ (50:ℕ) ≤ Real.exp 1 ^ (50:ℕ) := by
      refine pow_le_pow_left₀ (by norm_num) ?_ _
      linarith [Real.exp_one_gt_d9]
    have h3 : (2e15 : ℝ) < (2.7:ℝ) ^ (50:ℕ) := by norm_num
    rw [h1]
    linarith
  have hsrt : (2e15 : ℝ) < Real.sqrt (1 + Real.exp 50 ^ 2) := by
    have h1 : Real.exp 50 = Real.sqrt (Real.exp 50 ^ 2) :=
      (Real.sqrt_sq (le_of_lt (Real.exp_pos 50))).symm
    have h2 : Real.sqrt (Real.exp 50 ^ 2) ≤ Real.sqrt (1 + Real.exp 50 ^ 2) :=
      Real.sqrt_le_sqrt (by linarith)
    linarith [hE, h1 ▸ h2]
  have hca : Real.cos (Real.arctan (Real.exp 50))
      = 1 / Real.sqrt (1 + Real.exp 50 ^ 2) := Real.cos_arctan _
  have hca_pos : 0 < Real.cos (Real.arctan (Real.exp 50)) := Real.cos_arctan_pos _
  have hca_lt : Real.cos (Real.arctan (Real.exp 50)) < 5e-16 := by
    rw [hca]
    rw [div_lt_iff (by linarith)]
    nlinarith [hsrt]
  have hsa_mem : 0 ≤ Real.sin (Real.arctan (Real.exp 50)) := by
    apply Real.sin_nonneg_of_nonneg_of_le_pi
    · rw [show (0:ℝ) = Real.arctan 0 by rw [Real.arctan_zero]]
      exact le_of_lt (Real.arctan_strictMono (Real.exp_pos 50))
    · linarith [Real.arctan_lt_pi_div_two (Real.exp 50), Real.pi_pos]
  have hsa_le := Real.sin_le_one (Real.arctan (Real.exp 50))
  -- cos ψ and sin ψ bounds
  have hcψ_eq : Real.cos (upsi 50) = 2 * Real.sin (Real.arctan (Real.exp 50))
      * Real.cos (Real.arctan (Real.exp 50)) := by
    simp only [upsi]
    rw [Real.cos_sub, Real.cos_pi_div_two, Real.sin_pi_div_two,
      Real.sin_two_mul]
    ring
  have hsψ_eq : Real.sin (upsi 50)
      = 1 - 2 * Real.cos (Real.arctan (Real.exp 50)) ^ 2 := by
    simp only [upsi]
    rw [Real.sin_sub, Real.cos_pi_div_two, Real.sin_pi_div_two,
      Real.cos_two_mul]
    ring
  have hcψ_lt : 0 ≤ Real.cos (upsi 50) ∧ Real.cos (upsi 50) < 1e-15 := by
    rw [hcψ_eq]
    constructor
    · positivity
    · nlinarith [hca_pos, hca_lt, hsa_le, hsa_mem]
  have hsψ_lt : 1 - 1e-15 < Real.sin (upsi 50) ∧ Real.sin (upsi 50) ≤ 1 := by
    rw [hsψ_eq]
    constructor
    · nlinarith [hca_lt, hca_pos]
    · nlinarith [sq_nonneg (Real.cos (Real.arctan (Real.exp 50)))]
  -- the unprojected point is within tolerance of the positive pole
  have happrox : approxEqual (unprojectPoint mercFrame 0 50) mercFrame.pos := by
    rw [hU50]
    refine ⟨?_, by norm_num [mercFrame], ?_⟩
    · show |Real.cos (upsi 50) - mercFrame.pos.x| < 1e-15
      rw [show mercFrame.pos.x = 0 from rfl, sub_zero,
        abs_of_nonneg hcψ_lt.1]
      exact hcψ_lt.2
    · show |Real.sin (upsi 50) - mercFrame.pos.z| < 1e-15
      rw [show mercFrame.pos.z = 1 from rfl, abs_lt]
      constructor <;> linarith [hsψ_lt.1, hsψ_lt.2]
  have hUnit50 : (unprojectPoint mercFrame 0 50).dot
      (unprojectPoint mercFrame 0 50) = 1 := by
    rw [hU50]
    simp only [Vec3.dot]
    linear_combination Real.sin_sq_add_cos_sq (upsi 50)
  intro hcontra
  rw [Unproject_coe, Project] at hcontra
  simp only [pfll_llfp hUnit50, if_pos happrox] at hcontra
  have := congrArg PlanarPoint.y hcontra
  simp at this
